import Mathlib

/-!
# FirstByte LLM proxy: hedging arbiters and header sanitisation

A shallow embedding of `src/proxy/main.go`.

* Go strings are lists of runes (`GoString`); `lit` turns a Lean literal into one.
* `http.Header` (`map[string][]string`) is an association list; `range` over the map is a
  left fold over the list, so a statement proved for every list covers every iteration order.
* The Go standard library functions the program calls (`strings.ToLower`,
  `textproto.CanonicalMIMEHeaderKey`, `Header.Add/Set/Del/Get`, `http.Error`) are embedded
  from their documented behaviour; results of the network and of `json.Unmarshal` are inputs.
-/

namespace FirstByte

/-! ## Go strings -/

/-- Go string, as its sequence of runes. -/
abbrev GoString := List Char

/-- Go string literal. -/
def lit (s : String) : GoString := s.toList

/-- Rune lower-casing used by `strings.ToLower`: `A`..`Z` are shifted by 32, and the two
non-ASCII runes whose lower case is an ASCII letter (U+0130, U+212A) are mapped to it.
Every other non-ASCII rune is sent by Go to a non-ASCII rune; it is left in place here, which
no comparison against an ASCII literal can observe. -/
def lowerRune (c : Char) : Char :=
  if 65 ≤ c.toNat ∧ c.toNat ≤ 90 then Char.ofNat (c.toNat + 32)
  else if c.toNat = 0x130 then 'i'
  else if c.toNat = 0x212A then 'k'
  else c

/-- Go `strings.ToLower`. -/
def ToLower (s : GoString) : GoString := s.map lowerRune

/-- Go `strings.Contains(s, substr)`, through prefix tests at every offset. -/
def startsWith : GoString → GoString → Bool
  | _, [] => true
  | [], _ :: _ => false
  | c :: s, d :: p => c = d && startsWith s p

/-- Go `strings.Contains`. -/
def Contains : GoString → GoString → Bool
  | [], substr => startsWith [] substr
  | c :: s, substr => startsWith (c :: s) substr || Contains s substr

/-! ## `net/textproto` canonical header keys -/

/-- Go `validHeaderFieldByte`: the RFC 7230 token characters. -/
def validHeaderFieldByte (c : Char) : Bool :=
  (48 ≤ c.toNat ∧ c.toNat ≤ 57) ∨ (65 ≤ c.toNat ∧ c.toNat ≤ 90) ∨ (97 ≤ c.toNat ∧ c.toNat ≤ 122)
    ∨ c ∈ (lit "!#$%&*+-.^_|~") ∨ c.toNat = 39 ∨ c.toNat = 96

/-- One byte of the canonicalisation loop: upper case at the start and after a dash, lower
case elsewhere. -/
def canonByte (upper : Bool) (c : Char) : Char :=
  if upper = true ∧ 97 ≤ c.toNat ∧ c.toNat ≤ 122 then Char.ofNat (c.toNat - 32)
  else if upper = false ∧ 65 ≤ c.toNat ∧ c.toNat ≤ 90 then Char.ofNat (c.toNat + 32)
  else c

/-- The loop of `canonicalMIMEHeaderKey`; `upper` says whether the next byte starts a word. -/
def canonLoop : Bool → GoString → GoString
  | _, [] => []
  | upper, c :: cs => canonByte upper c :: canonLoop (canonByte upper c = '-') cs

/-- Go `textproto.CanonicalMIMEHeaderKey`: a key holding a byte that is not a token character
(a space included) is returned unchanged, any other key is canonicalised. -/
def CanonicalMIMEHeaderKey (s : GoString) : GoString :=
  if s.all validHeaderFieldByte then canonLoop true s else s

/-! ## `http.Header` -/

/-- Go `http.Header`, a `map[string][]string`, as an association list. A lookup sees the
first entry of a key. -/
abbrev Header := List (GoString × List GoString)

/-- Go map read `h[k]`; the zero value (no values) when the key is absent. -/
def mapGet : Header → GoString → List GoString
  | [], _ => []
  | (k', vs) :: rest, k => if k' = k then vs else mapGet rest k

/-- Go map write `h[k] = vs`. -/
def mapSet : Header → GoString → List GoString → Header
  | [], k, vs => [(k, vs)]
  | (k', vs') :: rest, k, vs =>
    if k' = k then (k, vs) :: rest else (k', vs') :: mapSet rest k vs

/-- Go `delete(h, k)`. -/
def mapDelete (h : Header) (k : GoString) : Header :=
  h.filter (fun e => decide (e.1 ≠ k))

/-- The keys of the map, in iteration order. -/
def mapKeys (h : Header) : List GoString := h.map Prod.fst

/-- Go `Header.Add`: append `value` under the canonical form of `key`. -/
def Header.Add (h : Header) (key value : GoString) : Header :=
  mapSet h (CanonicalMIMEHeaderKey key) (mapGet h (CanonicalMIMEHeaderKey key) ++ [value])

/-- Go `Header.Set`: replace the values under the canonical form of `key`. -/
def Header.Set (h : Header) (key value : GoString) : Header :=
  mapSet h (CanonicalMIMEHeaderKey key) [value]

/-- Go `Header.Del`. -/
def Header.Del (h : Header) (key : GoString) : Header :=
  mapDelete h (CanonicalMIMEHeaderKey key)

/-- Go `Header.Values`. -/
def Header.Values (h : Header) (key : GoString) : List GoString :=
  mapGet h (CanonicalMIMEHeaderKey key)

/-- Go `Header.Get`: the first value, or the empty string. -/
def Header.Get (h : Header) (key : GoString) : GoString :=
  match mapGet h (CanonicalMIMEHeaderKey key) with
  | [] => []
  | v :: _ => v

/-! ## `copyHeaders` (main.go 342-351) -/

/-- The guard of `copyHeaders`: `strings.ToLower(key) == "content-length"`. -/
def isContentLength (key : GoString) : Bool :=
  decide (ToLower key = lit "content-length")

/-- The inner loop of `copyHeaders`: `for _, value := range values { dst.Add(key, value) }`. -/
def addAll (dst : Header) (key : GoString) (values : List GoString) : Header :=
  values.foldl (fun d value => Header.Add d key value) dst

/-- The function `copyHeaders(src, dst)`; the result is `dst` after the call. -/
def copyHeaders (src dst : Header) : Header :=
  src.foldl (fun d e => if isContentLength e.1 then d else addAll d e.1 e.2) dst

/-- The values `copyHeaders` takes from `src` for the destination name `name`: those of
every key that is not a content-length key and whose canonical form is `name`, in iteration
order. -/
def forwarded (src : Header) (name : GoString) : List GoString :=
  (src.filter (fun e => !isContentLength e.1 && decide (CanonicalMIMEHeaderKey e.1 = name))).flatMap
    Prod.snd

/-- Header sanitisation: `copyHeaders` into a fresh header set. -/
def sanitize (h : Header) : Header := copyHeaders h []

/-! ## Upstream request headers (main.go 158-161 and 266-269) -/

/-- The header set of the upstream request of a streaming attempt. `proxyReq.Header` is
empty after `http.NewRequestWithContext`; `clientHeader` is `r.Header`. -/
def streamingUpstreamHeader (clientHeader : Header) (openAIAPIKey : GoString) : Header :=
  let h1 := copyHeaders clientHeader []
  let h2 := Header.Set h1 (lit "Authorization") (lit "Bearer " ++ openAIAPIKey)
  let h3 := Header.Set h2 (lit "User-Agent") (lit "Go-OpenAI-Proxy/1.0")
  Header.Del h3 (lit "Content-Length")

/-- The header set of the upstream request of a non-streaming attempt. -/
def nonStreamingUpstreamHeader (clientHeader : Header) (openAIAPIKey : GoString) : Header :=
  let h1 := copyHeaders clientHeader []
  let h2 := Header.Set h1 (lit "Authorization") (lit "Bearer " ++ openAIAPIKey)
  let h3 := Header.Set h2 (lit "User-Agent") (lit "Go-OpenAI-Proxy/1.0")
  Header.Del h3 (lit "Content-Length")

/-! ## The client side: `http.ResponseWriter` -/

/-- A call on the client's `http.ResponseWriter` (and its `http.Flusher`). `WriteHeader`
carries the header set as it stands at the call. -/
inductive WriterCall where
  | WriteHeader (statusCode : Int) (header : Header)
  | Write (data : GoString)
  | Flush
  deriving DecidableEq, Repr

/-- The `http.ResponseWriter`: its header map `w.Header()` and the calls made on it. -/
structure ResponseWriter where
  header : Header
  calls : List WriterCall
  deriving DecidableEq, Repr

/-- Go `http.Error(w, msg, code)`: plain-text headers, the status, the message and a newline. -/
def httpError (w : ResponseWriter) (msg : GoString) (code : Int) : ResponseWriter :=
  let h1 := Header.Del w.header (lit "Content-Length")
  let h2 := Header.Set h1 (lit "Content-Type") (lit "text/plain; charset=utf-8")
  let h3 := Header.Set h2 (lit "X-Content-Type-Options") (lit "nosniff")
  { header := h3
    calls := w.calls ++ [WriterCall.WriteHeader code h3, WriterCall.Write (msg ++ lit "\n")] }

/-- The status the client was sent: that of the first `WriteHeader`. -/
def clientStatus : List WriterCall → Option Int
  | [] => none
  | WriterCall.WriteHeader c _ :: _ => some c
  | _ :: rest => clientStatus rest

/-- The header set the client was sent: that of the first `WriteHeader`. -/
def clientHeader : List WriterCall → Option Header
  | [] => none
  | WriterCall.WriteHeader _ h :: _ => some h
  | _ :: rest => clientHeader rest

/-- The body bytes handed to the client: the data of the `Write` calls, in order. -/
def clientBody : List WriterCall → GoString
  | [] => []
  | WriterCall.Write d :: rest => d ++ clientBody rest
  | _ :: rest => clientBody rest

/-- Number of `Write` calls. -/
def writeCount : List WriterCall → Nat
  | [] => 0
  | WriterCall.Write _ :: rest => writeCount rest + 1
  | _ :: rest => writeCount rest

/-- Number of `Flush` calls. -/
def flushCount : List WriterCall → Nat
  | [] => 0
  | WriterCall.Flush :: rest => flushCount rest + 1
  | _ :: rest => flushCount rest

/-! ## Streaming classification (main.go 103-114) -/

/-- The `requestBody` struct. -/
structure requestBody where
  Stream : Bool
  deriving DecidableEq, Repr

/-- The computation of `isStreaming` in `proxyHandler`. `Unmarshal` is the result of
`json.Unmarshal` into a `requestBody`, as a function of the body bytes; a nil body is the
empty list. -/
def isStreaming (Unmarshal : GoString → Except GoString requestBody)
    (originalBodyBytes : GoString) : Bool :=
  if originalBodyBytes.length > 0 then
    match Unmarshal originalBodyBytes with
    | Except.ok reqBodyData => reqBodyData.Stream
    | Except.error _ => Contains originalBodyBytes (lit "\"stream\":true")
  else false

/-! ## Non-streaming arbiter (main.go 247-340) -/

/-- An upstream `*http.Response`, as far as the handlers read it. -/
structure Response where
  StatusCode : Int
  Header : Header
  deriving DecidableEq, Repr

/-- The `responseWrapper` struct; `response` and `err` are nil when `none`. -/
structure responseWrapper where
  response : Option Response
  err : Option GoString
  body : GoString
  latency : Nat
  deriving DecidableEq, Repr

/-- What the network gives one non-streaming attempt: the results of
`http.NewRequestWithContext`, of `httpClient.Do` and of `io.ReadAll(resp.Body)`. -/
structure AttemptEnv where
  newRequestErr : Option GoString
  doResult : Except GoString Response
  readAll : Except GoString GoString
  latency : Nat

/-- The sends of one attempt goroutine on `responseChan` (main.go 256-290). The error of a
send is the cause, without the text `fmt.Errorf` puts around it. -/
def attemptSends (env : AttemptEnv) : List responseWrapper :=
  match env.newRequestErr with
  | some e => [{ response := none, err := some e, body := [], latency := 0 }]
  | none =>
    match env.doResult with
    | Except.error e => [{ response := none, err := some e, body := [], latency := env.latency }]
    | Except.ok resp =>
      match env.readAll with
      | Except.error e =>
        [{ response := none, err := some e, body := [], latency := env.latency }]
      | Except.ok bodyBytes =>
        [{ response := some resp, err := none, body := bodyBytes, latency := env.latency }]

/-- The success test of the collector loop (main.go 305). -/
def isSuccess (res : responseWrapper) : Bool :=
  match res.err, res.response with
  | none, some resp => decide (resp.StatusCode ≥ 200) && decide (resp.StatusCode < 300)
  | _, _ => false

/-- The variables of the collector loop. `cancelled` records the call of `cancel()`. -/
structure Collector where
  firstSuccessfulResponse : Option responseWrapper
  receivedResponses : List responseWrapper
  completedRequests : Nat
  cancelled : Bool
  deriving DecidableEq, Repr

/-- The collector before the loop. -/
def Collector.init : Collector :=
  { firstSuccessfulResponse := none, receivedResponses := [], completedRequests := 0,
    cancelled := false }

/-- The body of the collector loop up to the `break` test, for one received outcome. -/
def collectOne (st : Collector) (res : responseWrapper) : Collector :=
  let st1 := { st with completedRequests := st.completedRequests + 1
                       receivedResponses := st.receivedResponses ++ [res] }
  if isSuccess res = true ∧ st1.firstSuccessfulResponse = none then
    { st1 with firstSuccessfulResponse := some res, cancelled := true }
  else st1

/-- The loop `for res := range responseChan` (main.go 302-318) over the outcomes the channel
delivers, in arrival order, until it is closed. The result is the collector at the exit of
the loop and the outcomes left unread. -/
def collect (requestCount : Nat) : List responseWrapper → Collector →
    Collector × List responseWrapper
  | [], st => (st, [])
  | res :: rest, st =>
    let st2 := collectOne st res
    if st2.firstSuccessfulResponse ≠ none ∧ st2.completedRequests = requestCount then (st2, rest)
    else collect requestCount rest st2

/-- The header set sent to the client by the non-streaming path (main.go 328-332). -/
def nonStreamingClientHeader (respHeader wHeader : Header) : Header :=
  let h := copyHeaders respHeader wHeader
  if Header.Get h (lit "Content-Type") = lit "" then
    Header.Set h (lit "Content-Type") (lit "application/json")
  else h

/-- The part of `handleNonStreamingRequest` after the loop (main.go 320-335). A chosen
outcome always has a response, by `isSuccess`. -/
def respond (w : ResponseWriter) (st : Collector) : ResponseWriter :=
  match st.firstSuccessfulResponse with
  | none => httpError w (lit "All OpenAI requests failed.") 503
  | some first =>
    match first.response with
    | none => w
    | some chosenResp =>
      let h := nonStreamingClientHeader chosenResp.Header w.header
      { header := h
        calls := w.calls ++
          [WriterCall.WriteHeader chosenResp.StatusCode h, WriterCall.Write first.body] }

/-- The function `handleNonStreamingRequest`, from the collector loop on, over the outcomes
in arrival order. -/
def handleNonStreamingRequest (requestCount : Nat) (w : ResponseWriter)
    (outcomes : List responseWrapper) : ResponseWriter :=
  respond w (collect requestCount outcomes Collector.init).1

/-! ## Streaming arbiter (main.go 130-245) -/

/-- The error result of a `resp.Body.Read`. -/
inductive ReadErr where
  | none
  | EOF
  | other
  deriving DecidableEq, Repr

/-- The result of one `resp.Body.Read(buf)`: the bytes `buf[:n]` and the error. -/
structure ReadResult where
  data : GoString
  err : ReadErr
  deriving DecidableEq, Repr

/-- What one iteration of the relay loop does. -/
structure IterResult where
  calls : List WriterCall
  cancel : Bool
  exit : Bool
  deriving DecidableEq, Repr

/-- One iteration of the relay loop (main.go 199-224). `ctxDone` is what the `select` on
`ctx.Done()` sees, `rd` the result of the read, `writeErr` whether `w.Write` fails. When the
loop is left by `break`, the `cancel()` after the loop is counted with the iteration. -/
def relayIter (ctxDone : Bool) (rd : ReadResult) (writeErr : Bool) : IterResult :=
  if ctxDone then { calls := [], cancel := false, exit := true }
  else if rd.data.length > 0 ∧ writeErr = true then
    { calls := [WriterCall.Write rd.data], cancel := true, exit := true }
  else
    let calls := if rd.data.length > 0 then [WriterCall.Write rd.data, WriterCall.Flush] else []
    if rd.err = ReadErr.EOF then { calls := calls, cancel := true, exit := true }
    else if rd.err ≠ ReadErr.none then { calls := calls, cancel := true, exit := true }
    else { calls := calls, cancel := false, exit := false }

/-- The input of one iteration of the relay loop. -/
structure IterInput where
  ctxDone : Bool
  rd : ReadResult
  writeErr : Bool
  deriving DecidableEq, Repr

/-- The state of the winning attempt in its relay loop. -/
structure Relay where
  calls : List WriterCall
  cancelled : Bool
  exited : Bool
  deriving DecidableEq, Repr

/-- The relay loop over a sequence of iteration inputs. `exited` is false when the inputs
run out with the loop still reading. -/
def relayLoop : List IterInput → Relay
  | [] => { calls := [], cancelled := false, exited := false }
  | x :: rest =>
    let r := relayIter x.ctxDone x.rd x.writeErr
    if r.exit then { calls := r.calls, cancelled := r.cancel, exited := true }
    else
      let t := relayLoop rest
      { calls := r.calls ++ t.calls, cancelled := t.cancelled, exited := t.exited }

/-- The calls of a relayed chunk: nothing for an empty read, a write and a flush else. -/
def chunkCalls (x : IterInput) : List WriterCall :=
  if x.rd.data.length > 0 then [WriterCall.Write x.rd.data, WriterCall.Flush] else []

/-- The header set sent to the client by the winning streaming attempt (main.go 178-184). -/
def streamingClientHeader (respHeader wHeader : Header) : Header :=
  let h := Header.Del (copyHeaders respHeader wHeader) (lit "Content-Length")
  if Header.Get h (lit "Content-Type") = lit "" then
    Header.Set h (lit "Content-Type") (lit "text/event-stream")
  else h

/-- Where an attempt goroutine of `handleStreamingRequest` stands. -/
inductive Pc where
  | start
  | atGate (resp : Response)
  | streaming
  | waiting
  | done
  deriving DecidableEq, Repr

/-- The state shared by the attempts of one streaming request. `log` is the calls on the
client's writer, each with the attempt that made it; `gateReads` records, for each attempt
that took the lock, the value of `headersSet` it read. -/
structure StreamState where
  headersSet : Bool
  header : Header
  log : List (Nat × WriterCall)
  cancelled : Bool
  firstResponseStarted : Nat
  pc : Nat → Pc
  gateReads : List (Nat × Bool)

/-- A step of one attempt, or of the environment. -/
inductive Action where
  | requestError (i : Nat)
  | doError (i : Nat)
  | doResponse (i : Nat) (resp : Response)
  | gate (i : Nat)
  | relay (i : Nat) (rd : ReadResult) (writeErr : Bool)
  | wake (i : Nat) (viaChannel : Bool)
  | parentDone
  deriving DecidableEq, Repr

/-- The state when the `requestCount` goroutines have been started. -/
def StreamState.init (requestCount : Nat) : StreamState :=
  { headersSet := false, header := [], log := [], cancelled := false, firstResponseStarted := 0,
    pc := fun i => if i < requestCount then Pc.start else Pc.done, gateReads := [] }

/-- The step function. An action that is not enabled leaves the state as it is.
* `requestError`, `doError`: the attempt returns (main.go 153-156, 165-168).
* `doResponse`: the attempt returns on a status outside [200,300) (171-174), else goes to
  the lock.
* `gate`: the section between `headersMu.Lock()` and `headersMu.Unlock()` (176-194, 232).
* `relay`: one iteration of the relay loop (199-230).
* `wake`: a branch of the `select` of a losing attempt (234-239), the receive from
  `firstResponseStarted` when `viaChannel`, else `ctx.Done()`.
* `parentDone`: the context of the inbound request is cancelled. -/
def step (s : StreamState) : Action → StreamState
  | Action.requestError i =>
    if s.pc i = Pc.start then { s with pc := Function.update s.pc i Pc.done } else s
  | Action.doError i =>
    if s.pc i = Pc.start then { s with pc := Function.update s.pc i Pc.done } else s
  | Action.doResponse i resp =>
    if s.pc i = Pc.start then
      if resp.StatusCode < 200 ∨ resp.StatusCode ≥ 300 then
        { s with pc := Function.update s.pc i Pc.done }
      else { s with pc := Function.update s.pc i (Pc.atGate resp) }
    else s
  | Action.gate i =>
    match s.pc i with
    | Pc.atGate resp =>
      if s.headersSet = false then
        let h := streamingClientHeader resp.Header s.header
        { s with
          header := h
          log := s.log ++ [(i, WriterCall.WriteHeader resp.StatusCode h)]
          headersSet := true
          firstResponseStarted := if s.firstResponseStarted < 1 then s.firstResponseStarted + 1
            else s.firstResponseStarted
          pc := Function.update s.pc i Pc.streaming
          gateReads := s.gateReads ++ [(i, s.headersSet)] }
      else
        { s with
          pc := Function.update s.pc i Pc.waiting
          gateReads := s.gateReads ++ [(i, s.headersSet)] }
    | _ => s
  | Action.relay i rd writeErr =>
    if s.pc i = Pc.streaming then
      let r := relayIter s.cancelled rd writeErr
      { s with
        log := s.log ++ r.calls.map (fun c => (i, c))
        cancelled := s.cancelled || r.cancel
        pc := if r.exit then Function.update s.pc i Pc.done else s.pc }
    else s
  | Action.wake i viaChannel =>
    if s.pc i = Pc.waiting then
      if viaChannel then
        if s.firstResponseStarted > 0 then
          { s with
            firstResponseStarted := s.firstResponseStarted - 1
            pc := Function.update s.pc i Pc.done }
        else s
      else if s.cancelled then { s with pc := Function.update s.pc i Pc.done }
      else s
    else s
  | Action.parentDone => { s with cancelled := true }

/-- The state after a sequence of actions. -/
def run (s : StreamState) (acts : List Action) : StreamState := acts.foldl step s

/-- The attempts that turned `headersSet` from false to true. -/
def committers (s : StreamState) : List Nat :=
  (s.gateReads.filter (fun p => !p.2)).map Prod.fst

/-- The calls that reached the client's writer, without their authors. -/
def StreamState.calls (s : StreamState) : List WriterCall := s.log.map Prod.snd

/-- All the goroutines have returned: `wg.Wait()` returns and with it the handler. -/
def handlerReturned (requestCount : Nat) (s : StreamState) : Bool :=
  (List.range requestCount).all (fun i => decide (s.pc i = Pc.done))

/-- The invariant of the streaming arbiter: while `headersSet` is false nobody has passed the
gate or written; once it is true there is one committer, the author of every call, who is
streaming or has returned; an attempt passes the gate at most once. -/
structure Inv (s : StreamState) : Prop where
  unset : s.headersSet = false → s.gateReads = [] ∧ s.log = []
  set : s.headersSet = true →
    ∃ w, committers s = [w] ∧ (∀ p ∈ s.log, p.1 = w) ∧ (s.pc w = Pc.streaming ∨ s.pc w = Pc.done)
  streaming : ∀ i, s.pc i = Pc.streaming → i ∈ committers s
  fresh : ∀ i, (s.pc i = Pc.start ∨ ∃ r, s.pc i = Pc.atGate r) → i ∉ s.gateReads.map Prod.fst
  once : (s.gateReads.map Prod.fst).Nodup
  waiting : ∀ i, s.pc i = Pc.waiting → (i, true) ∈ s.gateReads

/-! ## Lemmas on runes and keys -/

theorem toNat_ofNat (n : Nat) (h : n < 55296) : (Char.ofNat n).toNat = n := by
  unfold Char.ofNat
  have hv : n.isValidChar := Or.inl h
  simp only [hv, Char.toNat, Char.ofNatAux, dite_true]
  rfl

theorem lowerRune_canonByte (upper : Bool) (c : Char) :
    lowerRune (canonByte upper c) = lowerRune c := by
  unfold canonByte
  split
  · next h =>
    have h1 : (Char.ofNat (c.toNat - 32)).toNat = c.toNat - 32 := toNat_ofNat _ (by omega)
    have e1 : lowerRune (Char.ofNat (c.toNat - 32)) = Char.ofNat (c.toNat - 32 + 32) := by
      unfold lowerRune
      rw [h1, if_pos (by omega)]
    have e2 : lowerRune c = c := by
      unfold lowerRune
      rw [if_neg (by omega), if_neg (by omega), if_neg (by omega)]
    rw [e1, e2, Nat.sub_add_cancel (by omega), Char.ofNat_toNat]
  · split
    · next h =>
      have h1 : (Char.ofNat (c.toNat + 32)).toNat = c.toNat + 32 := toNat_ofNat _ (by omega)
      have e1 : lowerRune (Char.ofNat (c.toNat + 32)) = Char.ofNat (c.toNat + 32) := by
        unfold lowerRune
        rw [h1, if_neg (by omega), if_neg (by omega), if_neg (by omega)]
      have e2 : lowerRune c = Char.ofNat (c.toNat + 32) := by
        unfold lowerRune
        rw [if_pos (by omega)]
      rw [e1, e2]
    · rfl

theorem ToLower_canonLoop (upper : Bool) (s : GoString) :
    ToLower (canonLoop upper s) = ToLower s := by
  induction s generalizing upper with
  | nil => rfl
  | cons c cs ih =>
    have := ih (decide (canonByte upper c = '-'))
    simp only [ToLower, canonLoop, List.map_cons, lowerRune_canonByte] at this ⊢
    rw [this]

/-- Canonicalisation only changes ASCII letter case. -/
theorem ToLower_canonical (s : GoString) : ToLower (CanonicalMIMEHeaderKey s) = ToLower s := by
  unfold CanonicalMIMEHeaderKey
  split
  · exact ToLower_canonLoop true s
  · rfl

theorem isContentLength_canonical (s : GoString) :
    isContentLength (CanonicalMIMEHeaderKey s) = isContentLength s := by
  unfold isContentLength
  rw [ToLower_canonical]

theorem canonByte_idem (upper : Bool) (c : Char) :
    canonByte upper (canonByte upper c) = canonByte upper c := by
  unfold canonByte
  split
  · next h =>
    obtain ⟨_, hlo, hhi⟩ := h
    have h1 : (Char.ofNat (c.toNat - 32)).toNat = c.toNat - 32 := toNat_ofNat _ (by omega)
    rw [h1, if_neg (fun hh => by omega), if_neg (fun hh => by simp_all)]
  · split
    · next h =>
      obtain ⟨_, hlo, hhi⟩ := h
      have h1 : (Char.ofNat (c.toNat + 32)).toNat = c.toNat + 32 := toNat_ofNat _ (by omega)
      rw [h1, if_neg (fun hh => by simp_all), if_neg (fun hh => by omega)]
    · rfl

theorem canonLoop_idem (upper : Bool) (s : GoString) :
    canonLoop upper (canonLoop upper s) = canonLoop upper s := by
  induction s generalizing upper with
  | nil => rfl
  | cons c cs ih =>
    simp only [canonLoop, canonByte_idem]
    rw [ih]

theorem valid_canonByte (upper : Bool) (c : Char) (h : validHeaderFieldByte c = true) :
    validHeaderFieldByte (canonByte upper c) = true := by
  unfold canonByte
  split
  · next hc =>
    have h1 : (Char.ofNat (c.toNat - 32)).toNat = c.toNat - 32 := toNat_ofNat _ (by omega)
    have : 65 ≤ (Char.ofNat (c.toNat - 32)).toNat ∧ (Char.ofNat (c.toNat - 32)).toNat ≤ 90 := by
      rw [h1]; omega
    simp [validHeaderFieldByte, this]
  · split
    · next hc =>
      have h1 : (Char.ofNat (c.toNat + 32)).toNat = c.toNat + 32 := toNat_ofNat _ (by omega)
      have : 97 ≤ (Char.ofNat (c.toNat + 32)).toNat ∧ (Char.ofNat (c.toNat + 32)).toNat ≤ 122 := by
        rw [h1]; omega
      simp [validHeaderFieldByte, this]
    · exact h

theorem valid_canonLoop (upper : Bool) (s : GoString) (h : s.all validHeaderFieldByte = true) :
    (canonLoop upper s).all validHeaderFieldByte = true := by
  induction s generalizing upper with
  | nil => rfl
  | cons c cs ih =>
    simp only [List.all_cons, Bool.and_eq_true] at h
    simp only [canonLoop, List.all_cons, Bool.and_eq_true]
    exact ⟨valid_canonByte upper c h.1, ih _ h.2⟩

/-- Canonicalisation is idempotent. -/
theorem canonical_idem (s : GoString) :
    CanonicalMIMEHeaderKey (CanonicalMIMEHeaderKey s) = CanonicalMIMEHeaderKey s := by
  unfold CanonicalMIMEHeaderKey
  by_cases h : s.all validHeaderFieldByte = true
  · rw [if_pos h, if_pos (valid_canonLoop true s h), canonLoop_idem]
  · rw [if_neg h, if_neg h]

/-! ## Lemmas on the map operations -/

theorem mapGet_mapSet (h : Header) (k k' : GoString) (vs : List GoString) :
    mapGet (mapSet h k vs) k' = if k = k' then vs else mapGet h k' := by
  induction h with
  | nil => simp [mapSet, mapGet]
  | cons e rest ih =>
    obtain ⟨k0, vs0⟩ := e
    by_cases h0 : k0 = k
    · subst h0
      by_cases h1 : k0 = k'
      · simp [mapSet, mapGet, h1]
      · simp [mapSet, mapGet, h1]
    · simp only [mapSet, if_neg h0, mapGet, ih]
      by_cases h1 : k0 = k'
      · subst h1
        simp [h0, Ne.symm h0]
      · simp [h1]

theorem mapGet_mapDelete (h : Header) (k k' : GoString) :
    mapGet (mapDelete h k) k' = if k = k' then [] else mapGet h k' := by
  induction h with
  | nil => simp [mapDelete, mapGet]
  | cons e rest ih =>
    obtain ⟨k0, vs0⟩ := e
    unfold mapDelete at ih ⊢
    by_cases h0 : k0 = k
    · subst h0
      simp only [List.filter_cons, ne_eq, not_true_eq_false, decide_False, Bool.false_eq_true,
        if_false, ih, mapGet]
      by_cases h1 : k0 = k'
      · simp [h1]
      · simp [h1]
    · simp only [List.filter_cons, ne_eq, h0, not_false_eq_true, decide_True, if_true, mapGet, ih]
      by_cases h1 : k0 = k'
      · subst h1
        simp [Ne.symm h0]
      · simp [h1]

theorem mem_mapKeys_mapSet (h : Header) (k k' : GoString) (vs : List GoString) :
    k' ∈ mapKeys (mapSet h k vs) ↔ k' = k ∨ k' ∈ mapKeys h := by
  induction h with
  | nil => simp [mapSet, mapKeys]
  | cons e rest ih =>
    obtain ⟨k0, vs0⟩ := e
    unfold mapKeys at ih ⊢
    by_cases h0 : k0 = k
    · subst h0
      simp [mapSet]
    · simp only [mapSet, if_neg h0, List.map_cons, List.mem_cons, ih]
      tauto

theorem mem_mapKeys_mapDelete (h : Header) (k k' : GoString) :
    k' ∈ mapKeys (mapDelete h k) ↔ k' ≠ k ∧ k' ∈ mapKeys h := by
  unfold mapKeys mapDelete
  simp only [List.mem_map, List.mem_filter, decide_eq_true_eq]
  constructor
  · rintro ⟨e, ⟨he, hne⟩, rfl⟩
    exact ⟨hne, e, he, rfl⟩
  · rintro ⟨hne, e, he, rfl⟩
    exact ⟨e, ⟨he, hne⟩, rfl⟩

theorem mapGet_eq_nil_of_not_mem (h : Header) (k : GoString) (hk : k ∉ mapKeys h) :
    mapGet h k = [] := by
  induction h with
  | nil => rfl
  | cons e rest ih =>
    obtain ⟨k0, vs0⟩ := e
    simp only [mapKeys, List.map_cons, List.mem_cons, not_or] at hk
    simp only [mapGet, if_neg (Ne.symm hk.1)]
    exact ih hk.2

/-! ## Lemmas on `copyHeaders` -/

theorem mapGet_Add (h : Header) (key value name : GoString) :
    mapGet (Header.Add h key value) name =
      if CanonicalMIMEHeaderKey key = name then mapGet h name ++ [value] else mapGet h name := by
  unfold Header.Add
  rw [mapGet_mapSet]
  by_cases hk : CanonicalMIMEHeaderKey key = name
  · simp [hk]
  · simp [hk]

theorem mapGet_addAll (h : Header) (key name : GoString) (values : List GoString) :
    mapGet (addAll h key values) name =
      if CanonicalMIMEHeaderKey key = name then mapGet h name ++ values else mapGet h name := by
  induction values generalizing h with
  | nil => simp [addAll]
  | cons v vs ih =>
    have := ih (Header.Add h key v)
    simp only [addAll, List.foldl_cons] at this ⊢
    rw [this, mapGet_Add]
    by_cases hk : CanonicalMIMEHeaderKey key = name
    · simp [hk]
    · simp [hk]

theorem forwarded_cons (e : GoString × List GoString) (src : Header) (name : GoString) :
    forwarded (e :: src) name =
      (if isContentLength e.1 = false ∧ CanonicalMIMEHeaderKey e.1 = name then e.2 else [])
        ++ forwarded src name := by
  unfold forwarded
  by_cases h1 : isContentLength e.1 = true
  · simp [List.filter_cons, h1]
  · by_cases h2 : CanonicalMIMEHeaderKey e.1 = name
    · simp [List.filter_cons, h1, h2]
    · simp [List.filter_cons, h1, h2]

theorem copyHeaders_cons (e : GoString × List GoString) (src dst : Header) :
    copyHeaders (e :: src) dst =
      copyHeaders src (if isContentLength e.1 then dst else addAll dst e.1 e.2) := rfl

theorem mapGet_copyHeaders (src dst : Header) (name : GoString) :
    mapGet (copyHeaders src dst) name = mapGet dst name ++ forwarded src name := by
  induction src generalizing dst with
  | nil => simp [copyHeaders, forwarded]
  | cons e rest ih =>
    rw [copyHeaders_cons, ih, forwarded_cons]
    by_cases h1 : isContentLength e.1 = true
    · simp [h1]
    · simp only [h1, Bool.false_eq_true, if_false, mapGet_addAll]
      by_cases h2 : CanonicalMIMEHeaderKey e.1 = name
      · simp [h1, h2]
      · simp [h2]

theorem mem_mapKeys_addAll (h : Header) (key k : GoString) (values : List GoString) :
    k ∈ mapKeys (addAll h key values) ↔
      k ∈ mapKeys h ∨ (values ≠ [] ∧ k = CanonicalMIMEHeaderKey key) := by
  induction values generalizing h with
  | nil => simp [addAll]
  | cons v vs ih =>
    have := ih (Header.Add h key v)
    simp only [addAll, List.foldl_cons] at this ⊢
    rw [this]
    unfold Header.Add
    rw [mem_mapKeys_mapSet]
    simp only [ne_eq, reduceCtorEq, not_false_eq_true, true_and]
    tauto

theorem mem_mapKeys_copyHeaders (src dst : Header) (k : GoString) :
    k ∈ mapKeys (copyHeaders src dst) ↔
      k ∈ mapKeys dst ∨
        ∃ e ∈ src, isContentLength e.1 = false ∧ e.2 ≠ [] ∧ CanonicalMIMEHeaderKey e.1 = k := by
  induction src generalizing dst with
  | nil => simp [copyHeaders]
  | cons e rest ih =>
    rw [copyHeaders_cons, ih]
    by_cases h1 : isContentLength e.1 = true
    · simp only [h1, if_true, List.mem_cons, exists_eq_or_imp, Bool.true_eq_false, false_and,
        false_or]
    · simp only [h1, Bool.false_eq_true, if_false, mem_mapKeys_addAll, List.mem_cons,
        exists_eq_or_imp]
      have h1f : isContentLength e.1 = false := by simpa using h1
      simp only [h1f, true_and]
      constructor
      · rintro ((h | ⟨h, rfl⟩) | h)
        · exact Or.inl h
        · exact Or.inr (Or.inl ⟨h, rfl⟩)
        · exact Or.inr (Or.inr h)
      · rintro (h | ⟨h, rfl⟩ | h)
        · exact Or.inl (Or.inl h)
        · exact Or.inl (Or.inr ⟨h, rfl⟩)
        · exact Or.inr h

theorem copyHeaders_filter (src dst : Header) :
    copyHeaders src dst = copyHeaders (src.filter (fun e => !isContentLength e.1)) dst := by
  induction src generalizing dst with
  | nil => rfl
  | cons e rest ih =>
    by_cases h1 : isContentLength e.1 = true
    · rw [copyHeaders_cons, List.filter_cons]
      simp only [h1, if_true, Bool.not_true, Bool.false_eq_true, if_false]
      exact ih dst
    · have h1f : isContentLength e.1 = false := by simpa using h1
      rw [copyHeaders_cons, List.filter_cons]
      simp only [h1f, Bool.false_eq_true, if_false, Bool.not_false, if_true]
      rw [copyHeaders_cons]
      simp only [h1f, Bool.false_eq_true, if_false]
      exact ih _

/-! ## Lemmas on the collector loop -/

theorem collectOne_first (st : Collector) (res : responseWrapper) :
    (collectOne st res).firstSuccessfulResponse =
      st.firstSuccessfulResponse.or (if isSuccess res then some res else none) := by
  unfold collectOne
  cases hf : st.firstSuccessfulResponse with
  | none =>
    by_cases hs : isSuccess res = true
    · simp [hs, hf]
    · simp [hs, hf]
  | some x => simp [hf]

theorem collectOne_completed (st : Collector) (res : responseWrapper) :
    (collectOne st res).completedRequests = st.completedRequests + 1 := by
  unfold collectOne
  dsimp only
  split <;> rfl

theorem collectOne_received (st : Collector) (res : responseWrapper) :
    (collectOne st res).receivedResponses = st.receivedResponses ++ [res] := by
  unfold collectOne
  dsimp only
  split <;> rfl

theorem collect_cons (n : Nat) (res : responseWrapper) (rest : List responseWrapper)
    (st : Collector) :
    collect n (res :: rest) st =
      if (collectOne st res).firstSuccessfulResponse ≠ none ∧
          (collectOne st res).completedRequests = n then (collectOne st res, rest)
      else collect n rest (collectOne st res) := rfl

theorem collect_first (n : Nat) (outs : List responseWrapper) (st : Collector) :
    (collect n outs st).1.firstSuccessfulResponse =
      st.firstSuccessfulResponse.or (outs.find? isSuccess) := by
  induction outs generalizing st with
  | nil => simp [collect]
  | cons res rest ih =>
    rw [collect_cons]
    by_cases hb : (collectOne st res).firstSuccessfulResponse ≠ none ∧
        (collectOne st res).completedRequests = n
    · rw [if_pos hb]
      obtain ⟨hb1, _⟩ := hb
      rw [collectOne_first] at hb1
      show (collectOne st res).firstSuccessfulResponse = _
      rw [collectOne_first]
      cases hf : st.firstSuccessfulResponse with
      | some x => simp
      | none =>
        rw [hf] at hb1
        by_cases hs : isSuccess res = true
        · simp [hs, List.find?_cons]
        · simp [hs] at hb1
    · rw [if_neg hb, ih, collectOne_first]
      cases hf : st.firstSuccessfulResponse with
      | some x => simp
      | none =>
        by_cases hs : isSuccess res = true
        · simp [hs, List.find?_cons]
        · simp [hs, List.find?_cons]

theorem collect_drains (n : Nat) (outs : List responseWrapper) (st : Collector)
    (h : st.completedRequests + outs.length = n) :
    (collect n outs st).2 = [] ∧ (collect n outs st).1.completedRequests = n ∧
      (collect n outs st).1.receivedResponses = st.receivedResponses ++ outs := by
  induction outs generalizing st with
  | nil =>
    simp only [List.length_nil, Nat.add_zero] at h
    simp [collect, h]
  | cons res rest ih =>
    rw [collect_cons]
    simp only [List.length_cons] at h
    by_cases hb : (collectOne st res).firstSuccessfulResponse ≠ none ∧
        (collectOne st res).completedRequests = n
    · rw [if_pos hb]
      obtain ⟨_, hb2⟩ := hb
      have hb3 := hb2
      rw [collectOne_completed] at hb3
      have hr : rest = [] := List.eq_nil_of_length_eq_zero (by omega)
      subst hr
      exact ⟨rfl, hb2, collectOne_received st res⟩
    · rw [if_neg hb]
      have := ih (collectOne st res) (by rw [collectOne_completed]; omega)
      rw [collectOne_received] at this
      simpa using this

theorem find_first_success (pre post : List responseWrapper) (win : responseWrapper)
    (hpre : ∀ x ∈ pre, isSuccess x = false) (hwin : isSuccess win = true) :
    (pre ++ win :: post).find? isSuccess = some win := by
  induction pre with
  | nil => simp [List.find?_cons, hwin]
  | cons x xs ih =>
    have hx : isSuccess x = false := hpre x (List.mem_cons_self _ _)
    simp only [List.cons_append, List.find?_cons, hx]
    exact ih (fun y hy => hpre y (List.mem_cons_of_mem _ hy))

theorem isSuccess_iff (res : responseWrapper) :
    isSuccess res = true ↔
      res.err = none ∧ ∃ resp, res.response = some resp ∧ 200 ≤ resp.StatusCode ∧
        resp.StatusCode < 300 := by
  unfold isSuccess
  cases he : res.err with
  | some e => simp
  | none =>
    cases hr : res.response with
    | none => simp
    | some resp => simp

/-! ## Lemmas on `strings.Contains` -/

theorem startsWith_iff (s p : GoString) : startsWith s p = true ↔ ∃ t, s = p ++ t := by
  induction p generalizing s with
  | nil => simp [startsWith]
  | cons d p ih =>
    cases s with
    | nil => simp [startsWith]
    | cons c s =>
      simp only [startsWith, Bool.and_eq_true, decide_eq_true_eq, ih, List.cons_append,
        List.cons.injEq]
      constructor
      · rintro ⟨rfl, t, rfl⟩
        exact ⟨t, rfl, rfl⟩
      · rintro ⟨t, rfl, rfl⟩
        exact ⟨rfl, t, rfl⟩

theorem Contains_iff (s p : GoString) : Contains s p = true ↔ ∃ a b, s = a ++ p ++ b := by
  induction s with
  | nil =>
    simp only [Contains, startsWith_iff]
    constructor
    · rintro ⟨t, ht⟩
      exact ⟨[], t, by simpa using ht⟩
    · rintro ⟨a, b, hab⟩
      have h1 : a ++ p ++ b = [] := hab.symm
      simp only [List.append_eq_nil] at h1
      exact ⟨[], by simp [h1.1.2]⟩
  | cons c s ih =>
    simp only [Contains, Bool.or_eq_true, startsWith_iff, ih]
    constructor
    · rintro (⟨t, ht⟩ | ⟨a, b, hab⟩)
      · exact ⟨[], t, by simpa using ht⟩
      · exact ⟨c :: a, b, by simp [hab]⟩
    · rintro ⟨a, b, hab⟩
      cases a with
      | nil => exact Or.inl ⟨b, by simpa using hab⟩
      | cons a0 a =>
        simp only [List.cons_append, List.cons.injEq] at hab
        exact Or.inr ⟨a, b, by simpa using hab.2⟩

theorem forwarded_eq_nil (src : Header) (name : GoString)
    (h : ∀ e ∈ src, isContentLength e.1 = false → CanonicalMIMEHeaderKey e.1 ≠ name) :
    forwarded src name = [] := by
  induction src with
  | nil => rfl
  | cons x xs ih =>
    rw [forwarded_cons, ih (fun e he => h e (List.mem_cons_of_mem _ he))]
    by_cases hx : isContentLength x.1 = false ∧ CanonicalMIMEHeaderKey x.1 = name
    · exact absurd hx.2 (h x (List.mem_cons_self _ _) hx.1)
    · rw [if_neg hx]
      rfl

theorem forwarded_of_nodup (src : Header)
    (hnd : (src.map (fun e => CanonicalMIMEHeaderKey e.1)).Nodup)
    (e : GoString × List GoString) (he : e ∈ src) (hcl : isContentLength e.1 = false) :
    forwarded src (CanonicalMIMEHeaderKey e.1) = e.2 := by
  induction src with
  | nil => cases he
  | cons x xs ih =>
    simp only [List.map_cons, List.nodup_cons, List.mem_map, not_exists, not_and] at hnd
    rw [forwarded_cons]
    rcases List.mem_cons.1 he with rfl | hmem
    · rw [if_pos ⟨hcl, rfl⟩, forwarded_eq_nil xs _ (fun y hy _ => hnd.1 y hy)]
      simp
    · have hne : CanonicalMIMEHeaderKey x.1 ≠ CanonicalMIMEHeaderKey e.1 :=
        fun hx => hnd.1 e hmem hx.symm
      rw [if_neg (fun hx => hne hx.2), ih hnd.2 hmem]
      rfl

/-! ## Lemmas on the forwarded header sets -/

theorem canonical_Authorization :
    CanonicalMIMEHeaderKey (lit "Authorization") = lit "Authorization" := by decide

theorem canonical_UserAgent : CanonicalMIMEHeaderKey (lit "User-Agent") = lit "User-Agent" := by
  decide

theorem canonical_ContentLength :
    CanonicalMIMEHeaderKey (lit "Content-Length") = lit "Content-Length" := by decide

theorem canonical_ContentType :
    CanonicalMIMEHeaderKey (lit "Content-Type") = lit "Content-Type" := by decide

/-- A key that is not a content-length key does not canonicalise to `Content-Length`. -/
theorem canonical_ne_ContentLength (k : GoString) (h : isContentLength k = false) :
    CanonicalMIMEHeaderKey k ≠ lit "Content-Length" := by
  intro hk
  have h1 := isContentLength_canonical k
  rw [hk, h] at h1
  revert h1
  decide

theorem copyHeaders_keys_not_contentLength (src dst : Header)
    (hdst : ∀ k ∈ mapKeys dst, isContentLength k = false) :
    ∀ k ∈ mapKeys (copyHeaders src dst), isContentLength k = false := by
  intro k hk
  rcases (mem_mapKeys_copyHeaders src dst k).1 hk with h | ⟨e, _, hcl, _, rfl⟩
  · exact hdst k h
  · rw [isContentLength_canonical]
    exact hcl

theorem copyHeaders_keys_canonical (src dst : Header)
    (hdst : ∀ k ∈ mapKeys dst, CanonicalMIMEHeaderKey k = k) :
    ∀ k ∈ mapKeys (copyHeaders src dst), CanonicalMIMEHeaderKey k = k := by
  intro k hk
  rcases (mem_mapKeys_copyHeaders src dst k).1 hk with h | ⟨e, _, _, _, rfl⟩
  · exact hdst k h
  · exact canonical_idem e.1

theorem Set_keys (h : Header) (key value : GoString) (P : GoString → Prop)
    (hP : ∀ k ∈ mapKeys h, P k) (hkey : P (CanonicalMIMEHeaderKey key)) :
    ∀ k ∈ mapKeys (Header.Set h key value), P k := by
  intro k hk
  unfold Header.Set at hk
  rcases (mem_mapKeys_mapSet _ _ _ _).1 hk with rfl | h1
  · exact hkey
  · exact hP k h1

theorem Del_keys (h : Header) (key : GoString) (P : GoString → Prop)
    (hP : ∀ k ∈ mapKeys h, P k) : ∀ k ∈ mapKeys (Header.Del h key), P k := by
  intro k hk
  unfold Header.Del at hk
  exact hP k ((mem_mapKeys_mapDelete _ _ _).1 hk).2

theorem upstream_keys (client : Header) (key : GoString) (P : GoString → Prop)
    (hcopy : ∀ k ∈ mapKeys (copyHeaders client []), P k)
    (hA : P (lit "Authorization")) (hU : P (lit "User-Agent")) :
    ∀ k ∈ mapKeys (streamingUpstreamHeader client key), P k := by
  unfold streamingUpstreamHeader
  apply Del_keys
  apply Set_keys
  · apply Set_keys
    · exact hcopy
    · rw [canonical_Authorization]
      exact hA
  · rw [canonical_UserAgent]
    exact hU

theorem defaultType_keys (h : Header) (ct : GoString) (P : GoString → Prop)
    (hP : ∀ k ∈ mapKeys h, P k) (hct : P (lit "Content-Type")) :
    ∀ k ∈ mapKeys
      (if Header.Get h (lit "Content-Type") = lit "" then Header.Set h (lit "Content-Type") ct
        else h), P k := by
  split
  · apply Set_keys _ _ _ _ hP
    rw [canonical_ContentType]
    exact hct
  · exact hP

/-! ## Lemmas on the idempotence of `sanitize` -/

theorem mapSet_of_not_mem (acc : Header) (k : GoString) (vs : List GoString)
    (hk : k ∉ mapKeys acc) : mapSet acc k vs = acc ++ [(k, vs)] := by
  induction acc with
  | nil => rfl
  | cons e rest ih =>
    obtain ⟨k0, vs0⟩ := e
    simp only [mapKeys, List.map_cons, List.mem_cons, not_or] at hk
    simp only [mapSet, if_neg (Ne.symm hk.1), List.cons_append]
    rw [ih hk.2]

theorem mapSet_append_last (acc : Header) (k : GoString) (ws vs : List GoString)
    (hk : k ∉ mapKeys acc) : mapSet (acc ++ [(k, ws)]) k vs = acc ++ [(k, vs)] := by
  induction acc with
  | nil => simp [mapSet]
  | cons e rest ih =>
    obtain ⟨k0, vs0⟩ := e
    simp only [mapKeys, List.map_cons, List.mem_cons, not_or] at hk
    have h1 : mapSet ((k0, vs0) :: (rest ++ [(k, ws)])) k vs =
        (k0, vs0) :: mapSet (rest ++ [(k, ws)]) k vs := by
      simp only [mapSet, if_neg (Ne.symm hk.1)]
    rw [List.cons_append, h1, ih hk.2, List.cons_append]

theorem mapGet_append_last (acc : Header) (k : GoString) (ws : List GoString)
    (hk : k ∉ mapKeys acc) : mapGet (acc ++ [(k, ws)]) k = ws := by
  induction acc with
  | nil => simp [mapGet]
  | cons e rest ih =>
    obtain ⟨k0, vs0⟩ := e
    simp only [mapKeys, List.map_cons, List.mem_cons, not_or] at hk
    have h1 : mapGet ((k0, vs0) :: (rest ++ [(k, ws)])) k = mapGet (rest ++ [(k, ws)]) k := by
      simp only [mapGet, if_neg (Ne.symm hk.1)]
    rw [List.cons_append, h1]
    exact ih hk.2

theorem addAll_append_last (acc : Header) (k : GoString) (ws vs : List GoString)
    (hc : CanonicalMIMEHeaderKey k = k) (hk : k ∉ mapKeys acc) :
    addAll (acc ++ [(k, ws)]) k vs = acc ++ [(k, ws ++ vs)] := by
  induction vs generalizing ws with
  | nil => simp [addAll]
  | cons v vs ih =>
    have h1 : Header.Add (acc ++ [(k, ws)]) k v = acc ++ [(k, ws ++ [v])] := by
      unfold Header.Add
      rw [hc, mapGet_append_last acc k ws hk, mapSet_append_last acc k _ _ hk]
    have h2 := ih (ws ++ [v])
    simp only [addAll, List.foldl_cons] at h2 ⊢
    rw [h1, h2]
    simp

theorem addAll_of_not_mem (acc : Header) (k : GoString) (vs : List GoString)
    (hc : CanonicalMIMEHeaderKey k = k) (hk : k ∉ mapKeys acc) (hvs : vs ≠ []) :
    addAll acc k vs = acc ++ [(k, vs)] := by
  cases vs with
  | nil => exact absurd rfl hvs
  | cons v vs =>
    have h1 : Header.Add acc k v = acc ++ [(k, [v])] := by
      unfold Header.Add
      rw [hc, mapGet_eq_nil_of_not_mem acc k hk, mapSet_of_not_mem acc k _ hk]
      rfl
    have h2 := addAll_append_last acc k [v] vs hc hk
    simp only [addAll, List.foldl_cons] at h2 ⊢
    rw [h1, h2]
    rfl

/-- Copying a header set with distinct, canonical, non content-length keys that all have a
value, into a destination that has none of these keys, appends it. -/
theorem copyHeaders_append (x acc : Header) (hnd : (mapKeys x).Nodup)
    (hx : ∀ e ∈ x, CanonicalMIMEHeaderKey e.1 = e.1 ∧ isContentLength e.1 = false ∧ e.2 ≠ [])
    (hdisj : ∀ k ∈ mapKeys x, k ∉ mapKeys acc) : copyHeaders x acc = acc ++ x := by
  induction x generalizing acc with
  | nil => simp [copyHeaders]
  | cons e rest ih =>
    obtain ⟨hc, hcl, hv⟩ := hx e (List.mem_cons_self _ _)
    simp only [mapKeys, List.map_cons, List.nodup_cons] at hnd
    have hk : e.1 ∉ mapKeys acc := hdisj e.1 (by simp [mapKeys])
    rw [copyHeaders_cons, hcl]
    simp only [Bool.false_eq_true, if_false]
    rw [addAll_of_not_mem acc e.1 e.2 hc hk hv, ih (acc ++ [(e.1, e.2)]) hnd.2
      (fun y hy => hx y (List.mem_cons_of_mem _ hy))]
    · simp
    · intro k hkr hka
      simp only [mapKeys, List.map_append, List.map_cons, List.map_nil, List.mem_append,
        List.mem_singleton] at hka
      rcases hka with hka | rfl
      · exact hdisj k (by simp only [mapKeys, List.map_cons, List.mem_cons]; exact Or.inr hkr) hka
      · exact hnd.1 hkr

theorem mapKeys_mapSet_nodup (h : Header) (k : GoString) (vs : List GoString)
    (hnd : (mapKeys h).Nodup) : (mapKeys (mapSet h k vs)).Nodup := by
  induction h with
  | nil => simp [mapSet, mapKeys]
  | cons e rest ih =>
    obtain ⟨k0, vs0⟩ := e
    by_cases h0 : k0 = k
    · subst h0
      simpa [mapSet, mapKeys] using hnd
    · simp only [mapKeys, List.map_cons, List.nodup_cons] at hnd
      simp only [mapSet, if_neg h0]
      have hmem := mem_mapKeys_mapSet rest k k0 vs
      simp only [mapKeys] at hmem ih ⊢
      simp only [List.map_cons, List.nodup_cons]
      refine ⟨?_, ih hnd.2⟩
      rw [hmem]
      rintro (h1 | h1)
      · exact h0 h1
      · exact hnd.1 h1

theorem mem_mapSet (h : Header) (k : GoString) (vs : List GoString)
    (e : GoString × List GoString) (he : e ∈ mapSet h k vs) : e = (k, vs) ∨ e ∈ h := by
  induction h with
  | nil =>
    simp only [mapSet, List.mem_singleton] at he
    exact Or.inl he
  | cons x rest ih =>
    obtain ⟨k0, vs0⟩ := x
    by_cases h0 : k0 = k
    · simp only [mapSet, if_pos h0, List.mem_cons] at he
      rcases he with he | he
      · exact Or.inl he
      · exact Or.inr (List.mem_cons_of_mem _ he)
    · simp only [mapSet, if_neg h0, List.mem_cons] at he
      rcases he with he | he
      · exact Or.inr (by rw [he]; exact List.mem_cons_self _ _)
      · rcases ih he with h1 | h1
        · exact Or.inl h1
        · exact Or.inr (List.mem_cons_of_mem _ h1)

theorem addAll_inv (P : Header → Prop) (key : GoString)
    (hAdd : ∀ h v, P h → P (Header.Add h key v))
    (dst : Header) (vs : List GoString) (hdst : P dst) : P (addAll dst key vs) := by
  induction vs generalizing dst with
  | nil => exact hdst
  | cons v vs ih => exact ih _ (hAdd dst v hdst)

theorem copyHeaders_inv (P : Header → Prop)
    (hAdd : ∀ h key v, isContentLength key = false → P h → P (Header.Add h key v))
    (src dst : Header) (hdst : P dst) : P (copyHeaders src dst) := by
  induction src generalizing dst with
  | nil => exact hdst
  | cons e rest ih =>
    rw [copyHeaders_cons]
    by_cases hcl : isContentLength e.1 = true
    · rw [if_pos hcl]
      exact ih dst hdst
    · rw [if_neg hcl]
      have hf : isContentLength e.1 = false := by simpa using hcl
      exact ih _ (addAll_inv P e.1 (fun h v hp => hAdd h e.1 v hf hp) dst e.2 hdst)

/-- The result of `sanitize` has distinct, canonical, non content-length keys, each with a
value. -/
theorem sanitize_clean (h : Header) :
    (mapKeys (sanitize h)).Nodup ∧
      ∀ e ∈ sanitize h,
        CanonicalMIMEHeaderKey e.1 = e.1 ∧ isContentLength e.1 = false ∧ e.2 ≠ [] := by
  unfold sanitize
  apply copyHeaders_inv
    (fun d => (mapKeys d).Nodup ∧
      ∀ e ∈ d, CanonicalMIMEHeaderKey e.1 = e.1 ∧ isContentLength e.1 = false ∧ e.2 ≠ [])
  · intro d key v hcl hd
    unfold Header.Add
    refine ⟨mapKeys_mapSet_nodup d _ _ hd.1, ?_⟩
    intro e he
    rcases mem_mapSet d _ _ e he with rfl | h1
    · refine ⟨canonical_idem key, ?_, by simp⟩
      rw [isContentLength_canonical]
      exact hcl
    · exact hd.2 e h1
  · exact ⟨by simp [mapKeys], by simp⟩

theorem forwarded_eq_mapGet (h : Header) (hnd : (mapKeys h).Nodup)
    (hk : ∀ k ∈ mapKeys h, CanonicalMIMEHeaderKey k = k ∧ isContentLength k = false)
    (name : GoString) : forwarded h name = mapGet h name := by
  induction h with
  | nil => rfl
  | cons x xs ih =>
    obtain ⟨k0, vs0⟩ := x
    simp only [mapKeys, List.map_cons, List.nodup_cons] at hnd
    have hx := hk k0 (by simp [mapKeys])
    have hxs : ∀ k ∈ mapKeys xs, CanonicalMIMEHeaderKey k = k ∧ isContentLength k = false :=
      fun k hk1 => hk k (by simp only [mapKeys, List.map_cons, List.mem_cons]; exact Or.inr hk1)
    rw [forwarded_cons, ih hnd.2 hxs]
    simp only [hx.1, hx.2, true_and, mapGet]
    by_cases h0 : k0 = name
    · subst h0
      simp only [if_true]
      rw [mapGet_eq_nil_of_not_mem xs k0 hnd.1]
      simp
    · simp [h0]

/-! ## Lemmas on the streaming arbiter -/

theorem Inv_init (n : Nat) : Inv (StreamState.init n) where
  unset := fun _ => ⟨rfl, rfl⟩
  set := fun h => by simp [StreamState.init] at h
  streaming := fun i h => by
    simp only [StreamState.init] at h
    split at h <;> cases h
  fresh := fun i _ => by simp [StreamState.init]
  once := by simp [StreamState.init]
  waiting := fun i h => by
    simp only [StreamState.init] at h
    split at h <;> cases h

/-- An attempt leaves `start` for a state that is not past the gate. -/
theorem Inv_leave_start (s : StreamState) (i : Nat) (v : Pc) (h : Inv s) (hi : s.pc i = Pc.start)
    (hv : v = Pc.done ∨ ∃ r, v = Pc.atGate r) :
    Inv { s with pc := Function.update s.pc i v } where
  unset := h.unset
  set := fun hs => by
    obtain ⟨w, h1, h2, h3⟩ := h.set hs
    refine ⟨w, h1, h2, ?_⟩
    have hne : w ≠ i := by
      rintro rfl
      rw [hi] at h3
      rcases h3 with h3 | h3 <;> cases h3
    simpa [Function.update_apply, hne] using h3
  streaming := fun j hj => by
    simp only [Function.update_apply] at hj
    split at hj
    · rcases hv with rfl | ⟨r, rfl⟩ <;> cases hj
    · exact h.streaming j hj
  fresh := fun j hj => by
    simp only [Function.update_apply] at hj
    split at hj
    · next hji =>
      subst hji
      exact h.fresh j (Or.inl hi)
    · exact h.fresh j hj
  once := h.once
  waiting := fun j hj => by
    simp only [Function.update_apply] at hj
    split at hj
    · rcases hv with rfl | ⟨r, rfl⟩ <;> cases hj
    · exact h.waiting j hj


theorem committers_nil_of_unset (s : StreamState) (h : Inv s) (hs : s.headersSet = false) :
    committers s = [] := by
  simp [committers, (h.unset hs).1]

theorem headersSet_of_mem_committers (s : StreamState) (h : Inv s) (i : Nat)
    (hi : i ∈ committers s) : s.headersSet = true := by
  cases hs : s.headersSet with
  | true => rfl
  | false =>
    rw [committers_nil_of_unset s h hs] at hi
    cases hi

/-- The attempt at the gate reads `headersSet = false` and commits. -/
theorem Inv_commit (s : StreamState) (i : Nat) (hdr : Header) (n : Nat)
    (c : WriterCall) (h : Inv s) (hs : s.headersSet = false) :
    Inv { s with
      header := hdr
      log := s.log ++ [(i, c)]
      headersSet := true
      firstResponseStarted := n
      pc := Function.update s.pc i Pc.streaming
      gateReads := s.gateReads ++ [(i, s.headersSet)] } where
  unset := fun hf => by cases hf
  set := fun _ => by
    refine ⟨i, ?_, ?_, ?_⟩
    · simp [committers, (h.unset hs).1, hs]
    · simp [(h.unset hs).2]
    · simp
  streaming := fun j hj => by
    simp only [Function.update_apply] at hj
    split at hj
    · next hji => simp [committers, (h.unset hs).1, hs, hji]
    · have := h.streaming j hj
      rw [committers_nil_of_unset s h hs] at this
      cases this
  fresh := fun j hj => by
    simp only [Function.update_apply] at hj
    split at hj
    · rcases hj with hj | ⟨r, hj⟩ <;> cases hj
    · next hji => simp [(h.unset hs).1, hji]
  once := by simp [(h.unset hs).1]
  waiting := fun j hj => by
    simp only [Function.update_apply] at hj
    split at hj
    · cases hj
    · have := h.waiting j hj
      rw [(h.unset hs).1] at this
      cases this

/-- The attempt at the gate reads `headersSet = true` and goes waiting. -/
theorem Inv_observe (s : StreamState) (i : Nat) (resp : Response) (h : Inv s)
    (hi : s.pc i = Pc.atGate resp) (hs : s.headersSet = true) :
    Inv { s with
      pc := Function.update s.pc i Pc.waiting
      gateReads := s.gateReads ++ [(i, s.headersSet)] } where
  unset := fun hf => by
    simp only at hf
    rw [hs] at hf
    cases hf
  set := fun _ => by
    obtain ⟨w, h1, h2, h3⟩ := h.set hs
    refine ⟨w, ?_, h2, ?_⟩
    · simpa [committers, List.filter_append, hs] using h1
    · have hne : w ≠ i := by
        rintro rfl
        rw [hi] at h3
        rcases h3 with h3 | h3 <;> cases h3
      simpa [Function.update_apply, hne] using h3
  streaming := fun j hj => by
    simp only [Function.update_apply] at hj
    split at hj
    · cases hj
    · have := h.streaming j hj
      simpa [committers, List.filter_append, hs] using this
  fresh := fun j hj => by
    simp only [Function.update_apply] at hj
    split at hj
    · rcases hj with hj | ⟨r, hj⟩ <;> cases hj
    · next hji =>
      have := h.fresh j hj
      simp only [List.map_append, List.map_cons, List.map_nil, List.mem_append,
        List.mem_singleton, not_or]
      exact ⟨this, hji⟩
  once := by
    have hfresh := h.fresh i (Or.inr ⟨resp, hi⟩)
    simp only [List.map_append, List.map_cons, List.map_nil]
    rw [List.nodup_append]
    refine ⟨h.once, by simp, ?_⟩
    intro a ha hb
    simp only [List.mem_singleton] at hb
    subst hb
    exact hfresh ha
  waiting := fun j hj => by
    simp only [Function.update_apply] at hj
    split at hj
    · next hji => simp [hji, hs]
    · have := h.waiting j hj
      simp [this]

/-- The winning attempt writes, and stays in its loop or returns. -/
theorem Inv_relay (s : StreamState) (i : Nat) (calls : List WriterCall) (b exit : Bool)
    (h : Inv s) (hi : s.pc i = Pc.streaming) :
    Inv { s with
      log := s.log ++ calls.map (fun c => (i, c))
      cancelled := b
      pc := if exit then Function.update s.pc i Pc.done else s.pc } where
  unset := fun hf => by
    have := headersSet_of_mem_committers s h i (h.streaming i hi)
    simp only at hf
    rw [this] at hf
    cases hf
  set := fun hs => by
    obtain ⟨w, h1, h2, h3⟩ := h.set hs
    have hiw : i = w := by
      have := h.streaming i hi
      rw [committers] at this h1
      rw [h1] at this
      simpa using this
    refine ⟨w, h1, ?_, ?_⟩
    · intro p hp
      simp only [List.mem_append, List.mem_map] at hp
      rcases hp with hp | ⟨c, _, rfl⟩
      · exact h2 p hp
      · exact hiw
    · cases exit with
      | true =>
        subst hiw
        simp
      | false => simpa using h3
  streaming := fun j hj => by
    cases exit with
    | true =>
      simp only [if_true, Function.update_apply] at hj
      split at hj
      · cases hj
      · exact h.streaming j hj
    | false => exact h.streaming j hj
  fresh := fun j hj => by
    cases exit with
    | true =>
      simp only [if_true, Function.update_apply] at hj
      split at hj
      · rcases hj with hj | ⟨r, hj⟩ <;> cases hj
      · exact h.fresh j hj
    | false => exact h.fresh j hj
  once := h.once
  waiting := fun j hj => by
    cases exit with
    | true =>
      simp only [if_true, Function.update_apply] at hj
      split at hj
      · cases hj
      · exact h.waiting j hj
    | false => exact h.waiting j hj

/-- A waiting attempt returns. -/
theorem Inv_wake (s : StreamState) (i : Nat) (n : Nat) (h : Inv s) :
    Inv { s with firstResponseStarted := n, pc := Function.update s.pc i Pc.done } where
  unset := h.unset
  set := fun hs => by
    obtain ⟨w, h1, h2, h3⟩ := h.set hs
    refine ⟨w, h1, h2, ?_⟩
    simp only [Function.update_apply]
    split
    · exact Or.inr rfl
    · exact h3
  streaming := fun j hj => by
    simp only [Function.update_apply] at hj
    split at hj
    · cases hj
    · exact h.streaming j hj
  fresh := fun j hj => by
    simp only [Function.update_apply] at hj
    split at hj
    · rcases hj with hj | ⟨r, hj⟩ <;> cases hj
    · exact h.fresh j hj
  once := h.once
  waiting := fun j hj => by
    simp only [Function.update_apply] at hj
    split at hj
    · cases hj
    · exact h.waiting j hj

theorem step_inv (s : StreamState) (a : Action) (h : Inv s) : Inv (step s a) := by
  cases a with
  | requestError i =>
    by_cases hi : s.pc i = Pc.start
    · have : step s (Action.requestError i) = { s with pc := Function.update s.pc i Pc.done } :=
        by simp only [step, if_pos hi]
      rw [this]
      exact Inv_leave_start s i Pc.done h hi (Or.inl rfl)
    · have : step s (Action.requestError i) = s := by simp only [step, if_neg hi]
      rw [this]
      exact h
  | doError i =>
    by_cases hi : s.pc i = Pc.start
    · have : step s (Action.doError i) = { s with pc := Function.update s.pc i Pc.done } :=
        by simp only [step, if_pos hi]
      rw [this]
      exact Inv_leave_start s i Pc.done h hi (Or.inl rfl)
    · have : step s (Action.doError i) = s := by simp only [step, if_neg hi]
      rw [this]
      exact h
  | doResponse i resp =>
    by_cases hi : s.pc i = Pc.start
    · by_cases hc : resp.StatusCode < 200 ∨ resp.StatusCode ≥ 300
      · have : step s (Action.doResponse i resp) =
            { s with pc := Function.update s.pc i Pc.done } := by
          simp only [step, if_pos hi, if_pos hc]
        rw [this]
        exact Inv_leave_start s i Pc.done h hi (Or.inl rfl)
      · have : step s (Action.doResponse i resp) =
            { s with pc := Function.update s.pc i (Pc.atGate resp) } := by
          simp only [step, if_pos hi, if_neg hc]
        rw [this]
        exact Inv_leave_start s i (Pc.atGate resp) h hi (Or.inr ⟨resp, rfl⟩)
    · have : step s (Action.doResponse i resp) = s := by simp only [step, if_neg hi]
      rw [this]
      exact h
  | gate i =>
    cases hi : s.pc i with
    | atGate resp =>
      cases hs : s.headersSet with
      | false =>
        have := Inv_commit s i (streamingClientHeader resp.Header s.header)
          (if s.firstResponseStarted < 1 then s.firstResponseStarted + 1
            else s.firstResponseStarted)
          (WriterCall.WriteHeader resp.StatusCode (streamingClientHeader resp.Header s.header))
          h hs
        simpa only [step, hi, hs, if_true] using this
      | true =>
        have := Inv_observe s i resp h hi hs
        simpa only [step, hi, hs, Bool.true_eq_false, if_false] using this
    | start => simpa only [step, hi] using h
    | streaming => simpa only [step, hi] using h
    | waiting => simpa only [step, hi] using h
    | done => simpa only [step, hi] using h
  | relay i rd writeErr =>
    by_cases hi : s.pc i = Pc.streaming
    · have := Inv_relay s i (relayIter s.cancelled rd writeErr).calls
        (s.cancelled || (relayIter s.cancelled rd writeErr).cancel)
        (relayIter s.cancelled rd writeErr).exit h hi
      simpa only [step, if_pos hi] using this
    · simpa only [step, if_neg hi] using h
  | wake i viaChannel =>
    by_cases hi : s.pc i = Pc.waiting
    · cases viaChannel with
      | true =>
        by_cases hf : s.firstResponseStarted > 0
        · have := Inv_wake s i (s.firstResponseStarted - 1) h
          simpa only [step, if_pos hi, if_true, if_pos hf] using this
        · simpa only [step, if_pos hi, if_true, if_neg hf] using h
      | false =>
        by_cases hc : s.cancelled = true
        · have := Inv_wake s i s.firstResponseStarted h
          simpa only [step, if_pos hi, Bool.false_eq_true, if_false, if_pos hc] using this
        · simpa only [step, if_pos hi, Bool.false_eq_true, if_false, if_neg hc] using h
    · simpa only [step, if_neg hi] using h
  | parentDone =>
    exact ⟨h.unset, h.set, h.streaming, h.fresh, h.once, h.waiting⟩

theorem run_inv (P : StreamState → Prop) (hstep : ∀ s a, P s → P (step s a))
    (s : StreamState) (acts : List Action) (h : P s) : P (run s acts) := by
  induction acts generalizing s with
  | nil => exact h
  | cons a rest ih => exact ih (step s a) (hstep s a h)

theorem fst_unique (l : List (Nat × Bool)) (hnd : (l.map Prod.fst).Nodup) (i : Nat)
    (a b : Bool) (ha : (i, a) ∈ l) (hb : (i, b) ∈ l) : a = b := by
  induction l with
  | nil => cases ha
  | cons x xs ih =>
    simp only [List.map_cons, List.nodup_cons, List.mem_map, not_exists, not_and] at hnd
    rcases List.mem_cons.1 ha with ha | ha <;> rcases List.mem_cons.1 hb with hb | hb
    · rw [← hb] at ha
      exact (Prod.mk.inj ha).2
    · exact absurd (by rw [← ha]) (hnd.1 (i, b) hb)
    · exact absurd (by rw [← hb]) (hnd.1 (i, a) ha)
    · exact ih hnd.2 ha hb

theorem mem_committers (s : StreamState) (i : Nat) :
    i ∈ committers s ↔ (i, false) ∈ s.gateReads := by
  unfold committers
  simp only [List.mem_map, List.mem_filter, Bool.not_eq_true']
  constructor
  · rintro ⟨⟨j, b⟩, ⟨hm, hb⟩, rfl⟩
    simp only at hb
    subst hb
    exact hm
  · intro h
    exact ⟨(i, false), ⟨h, rfl⟩, rfl⟩

theorem step_headersSet (s : StreamState) (a : Action) (h : s.headersSet = true) :
    (step s a).headersSet = true := by
  cases a with
  | requestError i =>
    simp only [step]
    split <;> exact h
  | doError i =>
    simp only [step]
    split <;> exact h
  | doResponse i resp =>
    simp only [step]
    split
    · split <;> exact h
    · exact h
  | gate i =>
    simp only [step]
    split
    · split
      · rfl
      · exact h
    · exact h
  | relay i rd writeErr =>
    simp only [step]
    split <;> exact h
  | wake i viaChannel =>
    simp only [step]
    split
    · split
      · split <;> exact h
      · split <;> exact h
    · exact h
  | parentDone => exact h

theorem run_append (s : StreamState) (acts more : List Action) :
    run s (acts ++ more) = run (run s acts) more := by
  simp [run, List.foldl_append]

theorem relayIter_calls (ctxDone : Bool) (rd : ReadResult) (writeErr : Bool) :
    ∀ c ∈ (relayIter ctxDone rd writeErr).calls,
      c = WriterCall.Write rd.data ∨ c = WriterCall.Flush := by
  intro c hc
  unfold relayIter at hc
  cases ctxDone <;> cases writeErr <;> cases he : rd.err <;>
    by_cases h3 : rd.data.length > 0 <;>
    simp only [he, h3, Bool.false_eq_true, if_false, if_true, and_false, and_true, and_self,
      ne_eq, not_true_eq_false, not_false_eq_true, reduceCtorEq, List.mem_cons,
      List.mem_singleton, List.not_mem_nil, or_false] at hc <;>
    first
      | exact hc
      | exact Or.inl hc

theorem step_requestError (s : StreamState) (i : Nat) :
    step s (Action.requestError i) =
      if s.pc i = Pc.start then { s with pc := Function.update s.pc i Pc.done } else s := rfl

theorem step_doError (s : StreamState) (i : Nat) :
    step s (Action.doError i) =
      if s.pc i = Pc.start then { s with pc := Function.update s.pc i Pc.done } else s := rfl

theorem step_doResponse (s : StreamState) (i : Nat) (resp : Response) :
    step s (Action.doResponse i resp) =
      if s.pc i = Pc.start then
        if resp.StatusCode < 200 ∨ resp.StatusCode ≥ 300 then
          { s with pc := Function.update s.pc i Pc.done }
        else { s with pc := Function.update s.pc i (Pc.atGate resp) }
      else s := rfl

/-- A step of an attempt that is at `start` or has returned, other than the arrival of a
response with a status in [200,300), writes nothing and leaves every attempt at `start` or
returned. -/
theorem step_all_failed (s : StreamState) (a : Action)
    (hpc : ∀ i, s.pc i = Pc.start ∨ s.pc i = Pc.done)
    (hfail : ∀ i resp, a = Action.doResponse i resp →
      resp.StatusCode < 200 ∨ resp.StatusCode ≥ 300) :
    (step s a).log = s.log ∧ (step s a).headersSet = s.headersSet ∧
      ∀ i, (step s a).pc i = Pc.start ∨ (step s a).pc i = Pc.done := by
  have hupd : ∀ i j, Function.update s.pc i Pc.done j = Pc.start ∨
      Function.update s.pc i Pc.done j = Pc.done := by
    intro i j
    rw [Function.update_apply]
    split
    · exact Or.inr rfl
    · exact hpc j
  cases a with
  | requestError i =>
    rw [step_requestError]
    split
    · exact ⟨rfl, rfl, hupd i⟩
    · exact ⟨rfl, rfl, hpc⟩
  | doError i =>
    rw [step_doError]
    split
    · exact ⟨rfl, rfl, hupd i⟩
    · exact ⟨rfl, rfl, hpc⟩
  | doResponse i resp =>
    rw [step_doResponse, if_pos (hfail i resp rfl)]
    split
    · exact ⟨rfl, rfl, hupd i⟩
    · exact ⟨rfl, rfl, hpc⟩
  | gate i =>
    have e : step s (Action.gate i) = s := by
      rcases hpc i with h1 | h1 <;> simp only [step, h1]
    rw [e]
    exact ⟨rfl, rfl, hpc⟩
  | relay i rd writeErr =>
    have hne : s.pc i ≠ Pc.streaming := by
      rcases hpc i with h1 | h1 <;> rw [h1] <;> simp
    have e : step s (Action.relay i rd writeErr) = s := by simp only [step, if_neg hne]
    rw [e]
    exact ⟨rfl, rfl, hpc⟩
  | wake i viaChannel =>
    have hne : s.pc i ≠ Pc.waiting := by
      rcases hpc i with h1 | h1 <;> rw [h1] <;> simp
    have e : step s (Action.wake i viaChannel) = s := by simp only [step, if_neg hne]
    rw [e]
    exact ⟨rfl, rfl, hpc⟩
  | parentDone => exact ⟨rfl, rfl, hpc⟩

/-- When no attempt receives a status in [200,300), no attempt passes the gate and nothing is
written to the client. -/
theorem run_all_failed (s : StreamState) (acts : List Action)
    (hpc : ∀ i, s.pc i = Pc.start ∨ s.pc i = Pc.done)
    (hfail : ∀ i resp, Action.doResponse i resp ∈ acts →
      resp.StatusCode < 200 ∨ resp.StatusCode ≥ 300) :
    (run s acts).log = s.log ∧ (run s acts).headersSet = s.headersSet ∧
      ∀ i, (run s acts).pc i = Pc.start ∨ (run s acts).pc i = Pc.done := by
  induction acts generalizing s with
  | nil => exact ⟨rfl, rfl, hpc⟩
  | cons a rest ih =>
    have hrest : ∀ i resp, Action.doResponse i resp ∈ rest →
        resp.StatusCode < 200 ∨ resp.StatusCode ≥ 300 :=
      fun i resp hm => hfail i resp (List.mem_cons_of_mem _ hm)
    have hstep := step_all_failed s a hpc
      (fun i resp he => hfail i resp (by rw [he]; exact List.mem_cons_self _ _))
    have := ih (step s a) hstep.2.2 hrest
    simp only [run, List.foldl_cons] at this ⊢
    exact ⟨this.1.trans hstep.1, this.2.1.trans hstep.2.1, this.2.2⟩

/-! ## Lemmas on the relay loop -/

theorem relayIter_continue (x : IterInput) (hc : x.ctxDone = false) (he : x.rd.err = ReadErr.none)
    (hw : x.rd.data ≠ [] → x.writeErr = false) :
    relayIter x.ctxDone x.rd x.writeErr =
      { calls := chunkCalls x, cancel := false, exit := false } := by
  unfold relayIter chunkCalls
  by_cases hd : x.rd.data.length > 0
  · have hwe := hw (List.length_pos.1 hd)
    simp [hc, he, hd, hwe]
  · simp [hc, he, hd]

theorem relayIter_last (x : IterInput) (hc : x.ctxDone = false) (he : x.rd.err ≠ ReadErr.none)
    (hw : x.rd.data ≠ [] → x.writeErr = false) :
    relayIter x.ctxDone x.rd x.writeErr =
      { calls := chunkCalls x, cancel := true, exit := true } := by
  unfold relayIter chunkCalls
  by_cases hd : x.rd.data.length > 0
  · have hwe := hw (List.length_pos.1 hd)
    by_cases h1 : x.rd.err = ReadErr.EOF
    · simp [hc, hd, hwe, h1]
    · simp [hc, he, hd, hwe, h1]
  · by_cases h1 : x.rd.err = ReadErr.EOF
    · simp [hc, hd, h1]
    · simp [hc, he, hd, h1]

theorem relayIter_writeErr (x : IterInput) (hc : x.ctxDone = false) (hd : x.rd.data ≠ [])
    (hw : x.writeErr = true) :
    relayIter x.ctxDone x.rd x.writeErr =
      { calls := [WriterCall.Write x.rd.data], cancel := true, exit := true } := by
  unfold relayIter
  have hlen : x.rd.data.length > 0 := List.length_pos.2 hd
  simp [hc, hlen, hw]

theorem relayLoop_cons (x : IterInput) (rest : List IterInput) :
    relayLoop (x :: rest) =
      if (relayIter x.ctxDone x.rd x.writeErr).exit then
        { calls := (relayIter x.ctxDone x.rd x.writeErr).calls
          cancelled := (relayIter x.ctxDone x.rd x.writeErr).cancel, exited := true }
      else
        { calls := (relayIter x.ctxDone x.rd x.writeErr).calls ++ (relayLoop rest).calls
          cancelled := (relayLoop rest).cancelled, exited := (relayLoop rest).exited } := rfl

/-- Iterations that read without error and write without error are relayed, and the loop
goes on. -/
theorem relayLoop_append (pre rest : List IterInput)
    (hpre : ∀ y ∈ pre, y.ctxDone = false ∧ y.rd.err = ReadErr.none ∧
      (y.rd.data ≠ [] → y.writeErr = false)) :
    relayLoop (pre ++ rest) =
      { calls := pre.flatMap chunkCalls ++ (relayLoop rest).calls
        cancelled := (relayLoop rest).cancelled, exited := (relayLoop rest).exited } := by
  induction pre with
  | nil => rfl
  | cons y ys ih =>
    obtain ⟨h1, h2, h3⟩ := hpre y (List.mem_cons_self _ _)
    rw [List.cons_append, relayLoop_cons, relayIter_continue y h1 h2 h3,
      ih (fun z hz => hpre z (List.mem_cons_of_mem _ hz))]
    simp [List.flatMap_cons]

theorem clientBody_append (a b : List WriterCall) :
    clientBody (a ++ b) = clientBody a ++ clientBody b := by
  induction a with
  | nil => rfl
  | cons c cs ih => cases c <;> simp [clientBody, ih]

theorem writeCount_append (a b : List WriterCall) :
    writeCount (a ++ b) = writeCount a + writeCount b := by
  induction a with
  | nil => simp [writeCount]
  | cons c cs ih =>
    cases c <;> simp [writeCount, ih]
    omega

theorem flushCount_append (a b : List WriterCall) :
    flushCount (a ++ b) = flushCount a + flushCount b := by
  induction a with
  | nil => simp [flushCount]
  | cons c cs ih =>
    cases c <;> simp [flushCount, ih]
    omega

theorem chunkCalls_body (l : List IterInput) :
    clientBody (l.flatMap chunkCalls) =
      ((l.map (fun y => y.rd.data)).filter (fun d => decide (d ≠ []))).flatten := by
  induction l with
  | nil => rfl
  | cons y ys ih =>
    rw [List.flatMap_cons, clientBody_append, ih]
    by_cases hd : y.rd.data = []
    · simp [chunkCalls, hd, clientBody]
    · have hlen : y.rd.data.length > 0 := List.length_pos.2 hd
      simp [chunkCalls, hd, hlen, clientBody]

theorem chunkCalls_counts (l : List IterInput) :
    writeCount (l.flatMap chunkCalls) = (l.filter (fun y => decide (y.rd.data ≠ []))).length ∧
      flushCount (l.flatMap chunkCalls) = writeCount (l.flatMap chunkCalls) := by
  induction l with
  | nil => exact ⟨rfl, rfl⟩
  | cons y ys ih =>
    rw [List.flatMap_cons, writeCount_append, flushCount_append, ih.1, ih.2, ih.1]
    by_cases hd : y.rd.data = []
    · simp [chunkCalls, hd, writeCount, flushCount]
    · have hlen : y.rd.data.length > 0 := List.length_pos.2 hd
      simp [chunkCalls, hd, hlen, writeCount, flushCount]
      omega

/-! ## Lemmas on the headers sent to the client -/

theorem nonStreamingClientHeader_keys (respHeader wHeader : Header)
    (hw : ∀ k ∈ mapKeys wHeader, isContentLength k = false) :
    ∀ k ∈ mapKeys (nonStreamingClientHeader respHeader wHeader), isContentLength k = false := by
  unfold nonStreamingClientHeader
  exact defaultType_keys _ _ _ (copyHeaders_keys_not_contentLength respHeader wHeader hw)
    (by decide)

theorem streamingClientHeader_keys (respHeader wHeader : Header)
    (hw : ∀ k ∈ mapKeys wHeader, isContentLength k = false) :
    ∀ k ∈ mapKeys (streamingClientHeader respHeader wHeader), isContentLength k = false := by
  unfold streamingClientHeader
  exact defaultType_keys _ _ _
    (Del_keys _ _ _ (copyHeaders_keys_not_contentLength respHeader wHeader hw)) (by decide)

theorem httpError_keys (w : ResponseWriter) (msg : GoString) (code : Int)
    (hw : ∀ k ∈ mapKeys w.header, isContentLength k = false) :
    ∀ k ∈ mapKeys (httpError w msg code).header, isContentLength k = false := by
  unfold httpError
  apply Set_keys
  · apply Set_keys
    · exact Del_keys _ _ _ hw
    · decide
  · decide

/-- The two outcomes of `handleNonStreamingRequest`. -/
theorem handle_cases (requestCount : Nat) (w : ResponseWriter)
    (outcomes : List responseWrapper) :
    (∃ first resp, outcomes.find? isSuccess = some first ∧ first.response = some resp ∧
      handleNonStreamingRequest requestCount w outcomes =
        { header := nonStreamingClientHeader resp.Header w.header
          calls := w.calls ++
            [WriterCall.WriteHeader resp.StatusCode
                (nonStreamingClientHeader resp.Header w.header),
              WriterCall.Write first.body] }) ∨
    (outcomes.find? isSuccess = none ∧
      handleNonStreamingRequest requestCount w outcomes =
        httpError w (lit "All OpenAI requests failed.") 503) := by
  have hfirst := collect_first requestCount outcomes Collector.init
  simp only [Collector.init, Option.none_or] at hfirst
  cases hf : outcomes.find? isSuccess with
  | none =>
    refine Or.inr ⟨rfl, ?_⟩
    unfold handleNonStreamingRequest respond
    simp only [Collector.init]
    rw [hfirst, hf]
  | some first =>
    have hs : isSuccess first = true := by
      have := List.find?_some hf
      simpa using this
    obtain ⟨_, resp, hr, _, _⟩ := (isSuccess_iff first).1 hs
    refine Or.inl ⟨first, resp, rfl, hr, ?_⟩
    unfold handleNonStreamingRequest respond
    simp only [Collector.init]
    rw [hfirst, hf]
    simp only [hr]

/-- Every header set the streaming arbiter holds or has sent is free of content-length keys. -/
theorem step_headers_clean (s : StreamState) (a : Action)
    (h : (∀ k ∈ mapKeys s.header, isContentLength k = false) ∧
      ∀ p ∈ s.log, ∀ c hdr, p.2 = WriterCall.WriteHeader c hdr →
        ∀ k ∈ mapKeys hdr, isContentLength k = false) :
    (∀ k ∈ mapKeys (step s a).header, isContentLength k = false) ∧
      ∀ p ∈ (step s a).log, ∀ c hdr, p.2 = WriterCall.WriteHeader c hdr →
        ∀ k ∈ mapKeys hdr, isContentLength k = false := by
  cases a with
  | requestError i =>
    rw [step_requestError]
    split <;> exact h
  | doError i =>
    rw [step_doError]
    split <;> exact h
  | doResponse i resp =>
    rw [step_doResponse]
    split
    · split <;> exact h
    · exact h
  | gate i =>
    cases hi : s.pc i with
    | atGate resp =>
      cases hs : s.headersSet with
      | false =>
        simp only [step, hi, hs, if_true]
        refine ⟨streamingClientHeader_keys _ _ h.1, ?_⟩
        intro p hp c hdr hc
        rcases List.mem_append.1 hp with hp | hp
        · exact h.2 p hp c hdr hc
        · simp only [List.mem_singleton] at hp
          subst hp
          simp only [WriterCall.WriteHeader.injEq] at hc
          rw [← hc.2]
          exact streamingClientHeader_keys _ _ h.1
      | true =>
        simp only [step, hi, hs, Bool.true_eq_false, if_false]
        exact h
    | start => simpa only [step, hi] using h
    | streaming => simpa only [step, hi] using h
    | waiting => simpa only [step, hi] using h
    | done => simpa only [step, hi] using h
  | relay i rd writeErr =>
    by_cases hi : s.pc i = Pc.streaming
    · simp only [step, if_pos hi]
      refine ⟨h.1, ?_⟩
      intro p hp c hdr hc
      rcases List.mem_append.1 hp with hp | hp
      · exact h.2 p hp c hdr hc
      · obtain ⟨c0, hc0, rfl⟩ := List.mem_map.1 hp
        simp only at hc
        rcases relayIter_calls _ _ _ c0 hc0 with h1 | h1 <;> rw [h1] at hc <;> cases hc
    · simpa only [step, if_neg hi] using h
  | wake i viaChannel =>
    by_cases hi : s.pc i = Pc.waiting
    · cases viaChannel with
      | true =>
        by_cases hf : s.firstResponseStarted > 0
        · simpa only [step, if_pos hi, if_true, if_pos hf] using h
        · simpa only [step, if_pos hi, if_true, if_neg hf] using h
      | false =>
        by_cases hc : s.cancelled = true
        · simpa only [step, if_pos hi, Bool.false_eq_true, if_false, if_pos hc] using h
        · simpa only [step, if_pos hi, Bool.false_eq_true, if_false, if_neg hc] using h
    · simpa only [step, if_neg hi] using h
  | parentDone => exact h

/-! ## The claims -/

/-- C1. Non-streaming arbiter over the outcomes in arrival order: when some outcome is
successful (no error, a response, status in [200,300)), the client is sent the status and
the whole body of the first successful outcome of the list, in one `WriteHeader` and one
`Write`; when none is, the client is sent status 503 and the text
"All OpenAI requests failed." (with the newline `http.Error` adds). -/
theorem nonStreaming_first_success (requestCount : Nat) (w : ResponseWriter)
    (outcomes : List responseWrapper) :
    (∀ first, outcomes.find? isSuccess = some first →
      ∃ resp, first.response = some resp ∧ first.err = none ∧
        200 ≤ resp.StatusCode ∧ resp.StatusCode < 300 ∧
        (handleNonStreamingRequest requestCount w outcomes).calls = w.calls ++
          [WriterCall.WriteHeader resp.StatusCode
              (nonStreamingClientHeader resp.Header w.header),
            WriterCall.Write first.body]) ∧
    (outcomes.find? isSuccess = none →
      (handleNonStreamingRequest requestCount w outcomes).calls = w.calls ++
        [WriterCall.WriteHeader 503 (httpError w (lit "All OpenAI requests failed.") 503).header,
          WriterCall.Write (lit "All OpenAI requests failed.\n")] ∧
      mapGet (httpError w (lit "All OpenAI requests failed.") 503).header (lit "Content-Type") =
        [lit "text/plain; charset=utf-8"]) := by
  have hfirst := collect_first requestCount outcomes Collector.init
  simp only [Collector.init, Option.none_or] at hfirst
  constructor
  · intro first hf
    have hs : isSuccess first = true := by
      have := List.find?_some hf
      simpa using this
    obtain ⟨he, resp, hr, h1, h2⟩ := (isSuccess_iff first).1 hs
    refine ⟨resp, hr, he, h1, h2, ?_⟩
    unfold handleNonStreamingRequest respond
    simp only [Collector.init]
    rw [hfirst, hf]
    simp only [hr]
  · intro hn
    constructor
    · unfold handleNonStreamingRequest respond
      simp only [Collector.init]
      rw [hfirst, hn]
      rfl
    · unfold httpError
      simp only [Header.Set]
      rw [mapGet_mapSet, mapGet_mapSet]
      have h1 : CanonicalMIMEHeaderKey (lit "Content-Type") = lit "Content-Type" := by decide
      have h2 : CanonicalMIMEHeaderKey (lit "X-Content-Type-Options") ≠ lit "Content-Type" := by
        decide
      rw [if_neg h2, h1, if_pos rfl]

/-- C1, at the scenario of the specification: outcomes [status 500, status 200 with body
{"ok":true}] give the client status 200 and body {"ok":true}. -/
theorem nonStreaming_first_success_witness :
    List.find? isSuccess
        [{ response := some ⟨500, []⟩, err := none, body := lit "upstream error", latency := 10 },
         { response := some ⟨200, []⟩, err := none, body := lit "\x7b\"ok\":true\x7d",
           latency := 50 }] =
      some { response := some ⟨200, []⟩, err := none, body := lit "\x7b\"ok\":true\x7d",
             latency := 50 } ∧
    ∃ resp, (some ⟨200, []⟩ : Option Response) = some resp ∧ (none : Option GoString) = none ∧
      200 ≤ resp.StatusCode ∧ resp.StatusCode < 300 ∧
      (handleNonStreamingRequest 2 ⟨[], []⟩
        [{ response := some ⟨500, []⟩, err := none, body := lit "upstream error", latency := 10 },
         { response := some ⟨200, []⟩, err := none, body := lit "\x7b\"ok\":true\x7d",
           latency := 50 }]).calls = [] ++
        [WriterCall.WriteHeader resp.StatusCode (nonStreamingClientHeader resp.Header []),
          WriterCall.Write (lit "\x7b\"ok\":true\x7d")] :=
  ⟨by decide,
    (nonStreaming_first_success 2 ⟨[], []⟩
      [{ response := some ⟨500, []⟩, err := none, body := lit "upstream error", latency := 10 },
       { response := some ⟨200, []⟩, err := none, body := lit "\x7b\"ok\":true\x7d",
         latency := 50 }]).1
      { response := some ⟨200, []⟩, err := none, body := lit "\x7b\"ok\":true\x7d",
        latency := 50 } (by decide)⟩

/-- C3. The call `copyHeaders(src, dst)`, for every `src` and `dst` (it has no error result):
(1) the content-length keys of `src` contribute nothing: the result is that of the copy of
`src` without them; (2) under every name, the destination holds its prior values followed
by the values of the `src` keys (content-length keys apart) whose canonical form is that
name, all of them, in order; when the canonical names of `src` are distinct, this is the
values of the one key `k`, appended under the canonical form of `k`; (3) a name that is the
canonical form of no copied `src` key keeps its values and its presence; the keys of the
result are those of `dst` and the canonical forms of the copied keys that have a value. -/
theorem copyHeaders_spec (src dst : Header) :
    copyHeaders src dst = copyHeaders (src.filter (fun e => !isContentLength e.1)) dst ∧
    (∀ name, mapGet (copyHeaders src dst) name = mapGet dst name ++ forwarded src name) ∧
    ((src.map (fun e => CanonicalMIMEHeaderKey e.1)).Nodup →
      ∀ e ∈ src, isContentLength e.1 = false →
        mapGet (copyHeaders src dst) (CanonicalMIMEHeaderKey e.1) =
          mapGet dst (CanonicalMIMEHeaderKey e.1) ++ e.2) ∧
    (∀ name, (∀ e ∈ src, isContentLength e.1 = false → CanonicalMIMEHeaderKey e.1 ≠ name) →
      mapGet (copyHeaders src dst) name = mapGet dst name ∧
        (name ∈ mapKeys (copyHeaders src dst) ↔ name ∈ mapKeys dst)) ∧
    (∀ k, k ∈ mapKeys (copyHeaders src dst) ↔
      k ∈ mapKeys dst ∨
        ∃ e ∈ src, isContentLength e.1 = false ∧ e.2 ≠ [] ∧ CanonicalMIMEHeaderKey e.1 = k) := by
  refine ⟨copyHeaders_filter src dst, mapGet_copyHeaders src dst, ?_, ?_,
    mem_mapKeys_copyHeaders src dst⟩
  · intro hnd e he hcl
    rw [mapGet_copyHeaders, forwarded_of_nodup src hnd e he hcl]
  · intro name hname
    constructor
    · rw [mapGet_copyHeaders, forwarded_eq_nil src name hname]
      simp
    · rw [mem_mapKeys_copyHeaders]
      constructor
      · rintro (h | ⟨e, he, hcl, _, hk⟩)
        · exact h
        · exact absurd hk (hname e he hcl)
      · exact Or.inl

/-- C3 at a source with a content-length key and a two-valued key, and a destination that
already has a value under the same name. -/
theorem copyHeaders_spec_witness :
    ([(lit "content-length", [lit "5"]), (lit "x-a", [lit "1", lit "1"])].map
        (fun e => CanonicalMIMEHeaderKey e.1)).Nodup ∧
    (lit "x-a", [lit "1", lit "1"]) ∈
      [(lit "content-length", [lit "5"]), (lit "x-a", [lit "1", lit "1"])] ∧
    isContentLength (lit "x-a") = false ∧
    mapGet
        (copyHeaders [(lit "content-length", [lit "5"]), (lit "x-a", [lit "1", lit "1"])]
          [(lit "X-A", [lit "0"])])
        (CanonicalMIMEHeaderKey (lit "x-a")) =
      mapGet [(lit "X-A", [lit "0"])] (CanonicalMIMEHeaderKey (lit "x-a")) ++
        [lit "1", lit "1"] :=
  ⟨by decide, by decide, by decide,
    (copyHeaders_spec [(lit "content-length", [lit "5"]), (lit "x-a", [lit "1", lit "1"])]
      [(lit "X-A", [lit "0"])]).2.2.1 (by decide) (lit "x-a", [lit "1", lit "1"]) (by decide)
      (by decide)⟩

/-- C5. Streaming classification in `proxyHandler`, for every result of the JSON decoding:
an empty (or nil) body is non-streaming; for a non-empty body that decodes, the result is
the decoded `stream` field, whatever the body contains; for a non-empty body that does not
decode, the result is streaming exactly when the body contains the text "stream":true. -/
theorem isStreaming_spec (Unmarshal : GoString → Except GoString requestBody)
    (originalBodyBytes : GoString) :
    (originalBodyBytes = [] → isStreaming Unmarshal originalBodyBytes = false) ∧
    (∀ r, originalBodyBytes ≠ [] → Unmarshal originalBodyBytes = Except.ok r →
      isStreaming Unmarshal originalBodyBytes = r.Stream) ∧
    (∀ e, originalBodyBytes ≠ [] → Unmarshal originalBodyBytes = Except.error e →
      (isStreaming Unmarshal originalBodyBytes = true ↔
        ∃ a b, originalBodyBytes = a ++ lit "\"stream\":true" ++ b)) := by
  refine ⟨?_, ?_, ?_⟩
  · intro h
    simp [isStreaming, h]
  · intro r hne hr
    have hlen : originalBodyBytes.length > 0 := List.length_pos.2 hne
    simp [isStreaming, hlen, hr]
  · intro e hne he
    have hlen : originalBodyBytes.length > 0 := List.length_pos.2 hne
    simp only [isStreaming, hlen, if_true, he]
    exact Contains_iff _ _

/-- C5 at the valid JSON body {"stream":false,"x":{"stream":true}}: it decodes with `stream`
false (the nested object is an unknown field) and holds the text "stream":true; the decoded
value decides, the request is non-streaming. -/
theorem isStreaming_spec_witness :
    lit "\x7b\"stream\":false,\"x\":\x7b\"stream\":true\x7d\x7d" ≠ [] ∧
    (fun _ => Except.ok ⟨false⟩ : GoString → Except GoString requestBody)
        (lit "\x7b\"stream\":false,\"x\":\x7b\"stream\":true\x7d\x7d") = Except.ok ⟨false⟩ ∧
    Contains (lit "\x7b\"stream\":false,\"x\":\x7b\"stream\":true\x7d\x7d")
        (lit "\"stream\":true") = true ∧
    isStreaming (fun _ => Except.ok ⟨false⟩)
        (lit "\x7b\"stream\":false,\"x\":\x7b\"stream\":true\x7d\x7d") =
      (⟨false⟩ : requestBody).Stream :=
  ⟨by decide, rfl, by decide,
    (isStreaming_spec (fun _ => Except.ok ⟨false⟩)
      (lit "\x7b\"stream\":false,\"x\":\x7b\"stream\":true\x7d\x7d")).2.1
      ⟨false⟩ (by decide) rfl⟩

/-- C9. Drain-all in the non-streaming arbiter. Every attempt sends exactly one outcome on
`responseChan`, on each of its paths. When the channel delivers the outcomes of the
`requestCount` attempts, in any arrival order, the collector loop reads all of them before
the client is answered: it leaves nothing unread, has counted `requestCount` completions and
has received the outcomes in arrival order, with or without a winner. The outcomes that
arrive after the first successful one do not change the answer. -/
theorem nonStreaming_drains_all (requestCount : Nat) (w : ResponseWriter)
    (envs : List AttemptEnv) (chan : List responseWrapper)
    (hN : envs.length = requestCount) (harrival : chan.Perm (envs.flatMap attemptSends)) :
    (∀ env, (attemptSends env).length = 1) ∧
    chan.length = requestCount ∧
    (collect requestCount chan Collector.init).2 = [] ∧
    (collect requestCount chan Collector.init).1.completedRequests = requestCount ∧
    (collect requestCount chan Collector.init).1.receivedResponses = chan ∧
    handleNonStreamingRequest requestCount w chan =
      respond w (collect requestCount chan Collector.init).1 ∧
    (∀ pre win post, chan = pre ++ win :: post → (∀ x ∈ pre, isSuccess x = false) →
      isSuccess win = true →
      (collect requestCount chan Collector.init).1.firstSuccessfulResponse = some win ∧
        handleNonStreamingRequest requestCount w chan =
          handleNonStreamingRequest requestCount w (pre ++ [win])) := by
  have hone : ∀ env, (attemptSends env).length = 1 := by
    intro env
    unfold attemptSends
    split
    · rfl
    · split
      · rfl
      · split <;> rfl
  have hsum : ∀ es : List AttemptEnv, (es.flatMap attemptSends).length = es.length := by
    intro es
    induction es with
    | nil => rfl
    | cons e es ih => simp [List.flatMap_cons, hone, ih, Nat.add_comm]
  have hlen : chan.length = requestCount := by
    rw [harrival.length_eq, hsum, hN]
  have hd := collect_drains requestCount chan Collector.init
    (by simp [Collector.init, hlen])
  refine ⟨hone, hlen, hd.1, hd.2.1, by simpa [Collector.init] using hd.2.2, rfl, ?_⟩
  intro pre win post hchan hpre hwin
  have h1 : (collect requestCount chan Collector.init).1.firstSuccessfulResponse = some win := by
    rw [collect_first, hchan, find_first_success pre post win hpre hwin]
    rfl
  have h2 : (collect requestCount (pre ++ [win]) Collector.init).1.firstSuccessfulResponse =
      some win := by
    rw [collect_first, find_first_success pre [] win hpre hwin]
    rfl
  refine ⟨h1, ?_⟩
  unfold handleNonStreamingRequest respond
  rw [h1, h2]

/-- C9 at two attempts, the first answered 200 and the second failing in the network, with
the failure arriving first. -/
theorem nonStreaming_drains_all_witness :
    ([⟨none, Except.ok ⟨200, []⟩, Except.ok (lit "ok"), 50⟩,
        ⟨none, Except.error (lit "timeout"), Except.ok [], 10⟩] : List AttemptEnv).length = 2 ∧
    (collect 2
        [{ response := none, err := some (lit "timeout"), body := [], latency := 10 },
         { response := some ⟨200, []⟩, err := none, body := lit "ok", latency := 50 }]
        Collector.init).2 = [] ∧
    (collect 2
        [{ response := none, err := some (lit "timeout"), body := [], latency := 10 },
         { response := some ⟨200, []⟩, err := none, body := lit "ok", latency := 50 }]
        Collector.init).1.completedRequests = 2 :=
  ⟨rfl,
    (nonStreaming_drains_all 2 ⟨[], []⟩
      [⟨none, Except.ok ⟨200, []⟩, Except.ok (lit "ok"), 50⟩,
        ⟨none, Except.error (lit "timeout"), Except.ok [], 10⟩]
      [{ response := none, err := some (lit "timeout"), body := [], latency := 10 },
       { response := some ⟨200, []⟩, err := none, body := lit "ok", latency := 50 }]
      rfl (List.Perm.swap _ _ _)).2.2.1,
    (nonStreaming_drains_all 2 ⟨[], []⟩
      [⟨none, Except.ok ⟨200, []⟩, Except.ok (lit "ok"), 50⟩,
        ⟨none, Except.error (lit "timeout"), Except.ok [], 10⟩]
      [{ response := none, err := some (lit "timeout"), body := [], latency := 10 },
       { response := some ⟨200, []⟩, err := none, body := lit "ok", latency := 50 }]
      rfl (List.Perm.swap _ _ _)).2.2.2.1⟩

/-- C7. Upstream request headers, the same in both arbiters, for every client header set
and every configured key: `Authorization` has exactly the one value "Bearer " followed by
the key, and `User-Agent` exactly the one value "Go-OpenAI-Proxy/1.0", whatever the client
sent under these names in any letter case; every key of the result is in canonical form, so
no differently spelled copy of a name stays beside it; every other name holds the values the
client sent under it (content-length keys apart), and when the client's canonical names are
distinct, the values of each such client key are those under its canonical name. -/
theorem upstream_headers (clientHeader : Header) (openAIAPIKey : GoString) :
    nonStreamingUpstreamHeader clientHeader openAIAPIKey =
      streamingUpstreamHeader clientHeader openAIAPIKey ∧
    mapGet (streamingUpstreamHeader clientHeader openAIAPIKey) (lit "Authorization") =
      [lit "Bearer " ++ openAIAPIKey] ∧
    mapGet (streamingUpstreamHeader clientHeader openAIAPIKey) (lit "User-Agent") =
      [lit "Go-OpenAI-Proxy/1.0"] ∧
    (∀ k ∈ mapKeys (streamingUpstreamHeader clientHeader openAIAPIKey),
      CanonicalMIMEHeaderKey k = k) ∧
    (∀ name, name ≠ lit "Authorization" → name ≠ lit "User-Agent" →
      mapGet (streamingUpstreamHeader clientHeader openAIAPIKey) name =
        forwarded clientHeader name) ∧
    ((clientHeader.map (fun e => CanonicalMIMEHeaderKey e.1)).Nodup →
      ∀ e ∈ clientHeader, isContentLength e.1 = false →
        CanonicalMIMEHeaderKey e.1 ≠ lit "Authorization" →
        CanonicalMIMEHeaderKey e.1 ≠ lit "User-Agent" →
        mapGet (streamingUpstreamHeader clientHeader openAIAPIKey)
          (CanonicalMIMEHeaderKey e.1) = e.2) := by
  have hget : ∀ name, mapGet (streamingUpstreamHeader clientHeader openAIAPIKey) name =
      if lit "Content-Length" = name then []
      else if lit "User-Agent" = name then [lit "Go-OpenAI-Proxy/1.0"]
      else if lit "Authorization" = name then [lit "Bearer " ++ openAIAPIKey]
      else forwarded clientHeader name := by
    intro name
    unfold streamingUpstreamHeader Header.Del Header.Set
    simp only []
    rw [canonical_ContentLength, canonical_UserAgent, canonical_Authorization, mapGet_mapDelete,
      mapGet_mapSet, mapGet_mapSet, mapGet_copyHeaders]
    rfl
  have hother : ∀ name, name ≠ lit "Authorization" → name ≠ lit "User-Agent" →
      mapGet (streamingUpstreamHeader clientHeader openAIAPIKey) name =
        forwarded clientHeader name := by
    intro name hA hU
    rw [hget, if_neg (Ne.symm hU), if_neg (Ne.symm hA)]
    by_cases hcl : lit "Content-Length" = name
    · rw [if_pos hcl, forwarded_eq_nil]
      intro e _ he
      rw [← hcl]
      exact canonical_ne_ContentLength e.1 he
    · rw [if_neg hcl]
  refine ⟨rfl, ?_, ?_, ?_, hother, ?_⟩
  · rw [hget, if_neg (by decide), if_neg (by decide), if_pos rfl]
  · rw [hget, if_neg (by decide), if_pos rfl]
  · apply upstream_keys
    · exact copyHeaders_keys_canonical clientHeader [] (by simp [mapKeys])
    · exact canonical_Authorization
    · exact canonical_UserAgent
  · intro hnd e he hcl hA hU
    rw [hother _ hA hU, forwarded_of_nodup clientHeader hnd e he hcl]

/-- C7 at a client that sends two lower-case `authorization` values, a `CONTENT-LENGTH` and an
`accept` header: the `accept` values are forwarded under `Accept`. -/
theorem upstream_headers_witness :
    ([(lit "authorization", [lit "a", lit "b"]), (lit "CONTENT-LENGTH", [lit "3"]),
        (lit "accept", [lit "x", lit "y"])].map (fun e => CanonicalMIMEHeaderKey e.1)).Nodup ∧
    mapGet
        (streamingUpstreamHeader
          [(lit "authorization", [lit "a", lit "b"]), (lit "CONTENT-LENGTH", [lit "3"]),
            (lit "accept", [lit "x", lit "y"])] (lit "sk"))
        (CanonicalMIMEHeaderKey (lit "accept")) = [lit "x", lit "y"] :=
  ⟨by decide,
    (upstream_headers
      [(lit "authorization", [lit "a", lit "b"]), (lit "CONTENT-LENGTH", [lit "3"]),
        (lit "accept", [lit "x", lit "y"])] (lit "sk")).2.2.2.2.2 (by decide)
      (lit "accept", [lit "x", lit "y"]) (by decide) (by decide) (by decide) (by decide)⟩

/-- C8, as stated, fails: the header set with the one name `X-Empty`, bound to no value, has
no content-length entry and a canonical name, and `sanitize` of it is the empty header set,
not the header set itself. -/
theorem sanitize_drops_empty_key :
    (mapKeys [(lit "X-Empty", [])]).Nodup ∧
    (∀ k ∈ mapKeys [(lit "X-Empty", [])],
      CanonicalMIMEHeaderKey k = k ∧ isContentLength k = false) ∧
    sanitize [(lit "X-Empty", [])] = [] ∧
    sanitize [(lit "X-Empty", [])] ≠ [(lit "X-Empty", [])] := by
  decide

/-- C8, amended. With `sanitize h` the `copyHeaders` of `h` into an empty header set: for every
`h`, `sanitize (sanitize h) = sanitize h`. For every `h` with distinct keys (a map) that are
canonical and not content-length keys, `sanitize h` holds under every name the values `h`
holds under it; and when, in addition, every key of `h` has at least one value,
`sanitize h = h`. A key bound to no value is dropped, so the last condition is needed. -/
theorem sanitize_idempotent (h : Header) :
    sanitize (sanitize h) = sanitize h ∧
    ((mapKeys h).Nodup →
      (∀ k ∈ mapKeys h, CanonicalMIMEHeaderKey k = k ∧ isContentLength k = false) →
      (∀ name, mapGet (sanitize h) name = mapGet h name) ∧
        ((∀ e ∈ h, e.2 ≠ []) → sanitize h = h)) := by
  constructor
  · have hc := sanitize_clean h
    have := copyHeaders_append (sanitize h) [] hc.1 hc.2 (by simp [mapKeys])
    simpa [sanitize] using this
  · intro hnd hk
    constructor
    · intro name
      unfold sanitize
      rw [mapGet_copyHeaders, forwarded_eq_mapGet h hnd hk]
      rfl
    · intro hv
      have := copyHeaders_append h [] hnd
        (fun e he => ⟨(hk e.1 (List.mem_map_of_mem _ he)).1,
          (hk e.1 (List.mem_map_of_mem _ he)).2, hv e he⟩) (by simp [mapKeys])
      simpa [sanitize] using this

/-- C8 at a header set with canonical names and no content-length entry. -/
theorem sanitize_idempotent_witness :
    (mapKeys [(lit "Accept", [lit "x", lit "y"]), (lit "X-Trace", [lit "1"])]).Nodup ∧
    (∀ k ∈ mapKeys [(lit "Accept", [lit "x", lit "y"]), (lit "X-Trace", [lit "1"])],
      CanonicalMIMEHeaderKey k = k ∧ isContentLength k = false) ∧
    sanitize [(lit "Accept", [lit "x", lit "y"]), (lit "X-Trace", [lit "1"])] =
      [(lit "Accept", [lit "x", lit "y"]), (lit "X-Trace", [lit "1"])] :=
  ⟨by decide, by decide,
    ((sanitize_idempotent [(lit "Accept", [lit "x", lit "y"]), (lit "X-Trace", [lit "1"])]).2
      (by decide) (by decide)).2 (by decide)⟩

/-- C2. Streaming arbiter, the check-and-set of `headersSet` under the lock being one step.
In every state reached from the start of `requestCount` attempts by any sequence of steps:
at most one attempt has turned `headersSet` from false to true, and `headersSet` is true
exactly when there is one; every call on the client's writer (status and headers, body
bytes, flushes) was made by that attempt; an attempt that read `headersSet = true` at the
gate is not that attempt and has made no call; a streaming attempt is the committer and a
waiting attempt has read true; and `headersSet`, once true, stays true in every step and
along every continuation. -/
theorem streaming_single_writer (requestCount : Nat) (acts : List Action) :
    (committers (run (StreamState.init requestCount) acts)).length ≤ 1 ∧
    ((run (StreamState.init requestCount) acts).headersSet = true ↔
      (committers (run (StreamState.init requestCount) acts)).length = 1) ∧
    (∀ p ∈ (run (StreamState.init requestCount) acts).log,
      committers (run (StreamState.init requestCount) acts) = [p.1]) ∧
    (∀ p ∈ (run (StreamState.init requestCount) acts).gateReads, p.2 = false →
      committers (run (StreamState.init requestCount) acts) = [p.1]) ∧
    (∀ p ∈ (run (StreamState.init requestCount) acts).gateReads, p.2 = true →
      p.1 ∉ committers (run (StreamState.init requestCount) acts) ∧
        ∀ c, (p.1, c) ∉ (run (StreamState.init requestCount) acts).log) ∧
    (∀ i, (run (StreamState.init requestCount) acts).pc i = Pc.streaming →
      committers (run (StreamState.init requestCount) acts) = [i]) ∧
    (∀ i, (run (StreamState.init requestCount) acts).pc i = Pc.waiting →
      (i, true) ∈ (run (StreamState.init requestCount) acts).gateReads) ∧
    (∀ a, (run (StreamState.init requestCount) acts).headersSet = true →
      (step (run (StreamState.init requestCount) acts) a).headersSet = true) ∧
    (∀ more, (run (StreamState.init requestCount) acts).headersSet = true →
      (run (StreamState.init requestCount) (acts ++ more)).headersSet = true) := by
  have hinv : Inv (run (StreamState.init requestCount) acts) :=
    run_inv Inv step_inv _ acts (Inv_init requestCount)
  simp only [run_append]
  generalize run (StreamState.init requestCount) acts = s at hinv
  have hone : ∀ i, i ∈ committers s → committers s = [i] := by
    intro i hi
    obtain ⟨w, h1, _, _⟩ := hinv.set (headersSet_of_mem_committers s hinv i hi)
    rw [h1] at hi ⊢
    simp only [List.mem_singleton] at hi
    rw [hi]
  have hlog : ∀ p ∈ s.log, committers s = [p.1] := by
    intro p hp
    cases hs : s.headersSet with
    | false =>
      rw [(hinv.unset hs).2] at hp
      cases hp
    | true =>
      obtain ⟨w, h1, h2, _⟩ := hinv.set hs
      rw [h1, h2 p hp]
  have hobs : ∀ p ∈ s.gateReads, p.2 = true → p.1 ∉ committers s := by
    rintro ⟨i, b⟩ hp hb hc
    simp only at hb
    subst hb
    have := fst_unique s.gateReads hinv.once i true false hp ((mem_committers s i).1 hc)
    cases this
  refine ⟨?_, ?_, hlog, ?_, ?_, ?_, hinv.waiting, ?_, ?_⟩
  · cases hs : s.headersSet with
    | false => simp [committers_nil_of_unset s hinv hs]
    | true =>
      obtain ⟨w, h1, _, _⟩ := hinv.set hs
      simp [h1]
  · constructor
    · intro hs
      obtain ⟨w, h1, _, _⟩ := hinv.set hs
      simp [h1]
    · intro hl
      cases hs : s.headersSet with
      | true => rfl
      | false =>
        rw [committers_nil_of_unset s hinv hs] at hl
        cases hl
  · rintro ⟨i, b⟩ hp hb
    simp only at hb
    subst hb
    exact hone i ((mem_committers s i).2 hp)
  · intro p hp hb
    refine ⟨hobs p hp hb, ?_⟩
    intro c hc
    have := hlog (p.1, c) hc
    have hmem : p.1 ∈ committers s := by
      rw [this]
      simp
    exact hobs p hp hb hmem
  · intro i hi
    exact hone i (hinv.streaming i hi)
  · intro a hs
    exact step_headersSet s a hs
  · intro more hs
    exact run_inv (fun t => t.headersSet = true) step_headersSet _ more hs

/-- C2 at the streaming scenario of the specification: two attempts are answered 200,
attempt 0 takes the gate first and relays two chunks, attempt 1 reads `headersSet = true`.
The client gets the calls of attempt 0 only. -/
theorem streaming_single_writer_witness :
    (0, WriterCall.WriteHeader 200 (streamingClientHeader [] [])) ∈
      (run (StreamState.init 2)
        [Action.doResponse 0 ⟨200, []⟩, Action.doResponse 1 ⟨200, []⟩, Action.gate 0,
          Action.gate 1, Action.relay 0 ⟨lit "ab", ReadErr.none⟩ false, Action.wake 1 true,
          Action.relay 0 ⟨lit "c", ReadErr.EOF⟩ false]).log ∧
    (1, true) ∈
      (run (StreamState.init 2)
        [Action.doResponse 0 ⟨200, []⟩, Action.doResponse 1 ⟨200, []⟩, Action.gate 0,
          Action.gate 1, Action.relay 0 ⟨lit "ab", ReadErr.none⟩ false, Action.wake 1 true,
          Action.relay 0 ⟨lit "c", ReadErr.EOF⟩ false]).gateReads ∧
    committers
        (run (StreamState.init 2)
          [Action.doResponse 0 ⟨200, []⟩, Action.doResponse 1 ⟨200, []⟩, Action.gate 0,
            Action.gate 1, Action.relay 0 ⟨lit "ab", ReadErr.none⟩ false, Action.wake 1 true,
            Action.relay 0 ⟨lit "c", ReadErr.EOF⟩ false]) = [0] ∧
    (1 ∉ committers
        (run (StreamState.init 2)
          [Action.doResponse 0 ⟨200, []⟩, Action.doResponse 1 ⟨200, []⟩, Action.gate 0,
            Action.gate 1, Action.relay 0 ⟨lit "ab", ReadErr.none⟩ false, Action.wake 1 true,
            Action.relay 0 ⟨lit "c", ReadErr.EOF⟩ false]) ∧
      ∀ c, (1, c) ∉
        (run (StreamState.init 2)
          [Action.doResponse 0 ⟨200, []⟩, Action.doResponse 1 ⟨200, []⟩, Action.gate 0,
            Action.gate 1, Action.relay 0 ⟨lit "ab", ReadErr.none⟩ false, Action.wake 1 true,
            Action.relay 0 ⟨lit "c", ReadErr.EOF⟩ false]).log) :=
  ⟨by decide, by decide,
    (streaming_single_writer 2
      [Action.doResponse 0 ⟨200, []⟩, Action.doResponse 1 ⟨200, []⟩, Action.gate 0,
        Action.gate 1, Action.relay 0 ⟨lit "ab", ReadErr.none⟩ false, Action.wake 1 true,
        Action.relay 0 ⟨lit "c", ReadErr.EOF⟩ false]).2.2.1
      (0, WriterCall.WriteHeader 200 (streamingClientHeader [] [])) (by decide),
    (streaming_single_writer 2
      [Action.doResponse 0 ⟨200, []⟩, Action.doResponse 1 ⟨200, []⟩, Action.gate 0,
        Action.gate 1, Action.relay 0 ⟨lit "ab", ReadErr.none⟩ false, Action.wake 1 true,
        Action.relay 0 ⟨lit "c", ReadErr.EOF⟩ false]).2.2.2.2.1 (1, true) (by decide) rfl⟩

/-- C4. Content-Length is not forwarded in either direction. A key counts as a
content-length key when its lower-cased name is "content-length", so in any letter case.
(a) For every client header set and key, the upstream request headers of the streaming and
of the non-streaming arbiter have no such key. (b) For every upstream response header set
and a client header set empty before the copy, the headers the non-streaming path (by
`copyHeaders` alone) and the streaming path send have no such key; this holds for the headers
of every answer of `handleNonStreamingRequest`, the 503 included, and of every `WriteHeader`
in every state the streaming arbiter reaches. -/
theorem contentLength_never_forwarded (reqHeader respHeader : Header)
    (openAIAPIKey : GoString) :
    (∀ k ∈ mapKeys (streamingUpstreamHeader reqHeader openAIAPIKey),
      isContentLength k = false) ∧
    (∀ k ∈ mapKeys (nonStreamingUpstreamHeader reqHeader openAIAPIKey),
      isContentLength k = false) ∧
    (∀ k ∈ mapKeys (nonStreamingClientHeader respHeader []), isContentLength k = false) ∧
    (∀ k ∈ mapKeys (streamingClientHeader respHeader []), isContentLength k = false) ∧
    (∀ requestCount outcomes hdr,
      clientHeader (handleNonStreamingRequest requestCount ⟨[], []⟩ outcomes).calls = some hdr →
      ∀ k ∈ mapKeys hdr, isContentLength k = false) ∧
    (∀ requestCount acts, ∀ p ∈ (run (StreamState.init requestCount) acts).log,
      ∀ c hdr, p.2 = WriterCall.WriteHeader c hdr →
      ∀ k ∈ mapKeys hdr, isContentLength k = false) := by
  have hnil : ∀ k ∈ mapKeys ([] : Header), isContentLength k = false := by simp [mapKeys]
  have hup : ∀ k ∈ mapKeys (streamingUpstreamHeader reqHeader openAIAPIKey),
      isContentLength k = false :=
    upstream_keys reqHeader openAIAPIKey _
      (copyHeaders_keys_not_contentLength reqHeader [] hnil) (by decide) (by decide)
  refine ⟨hup, hup, nonStreamingClientHeader_keys respHeader [] hnil,
    streamingClientHeader_keys respHeader [] hnil, ?_, ?_⟩
  · intro requestCount outcomes hdr hh
    rcases handle_cases requestCount ⟨[], []⟩ outcomes with ⟨first, resp, _, _, he⟩ | ⟨_, he⟩
    · rw [he] at hh
      simp only [List.nil_append, clientHeader, Option.some.injEq] at hh
      rw [← hh]
      exact nonStreamingClientHeader_keys resp.Header [] hnil
    · rw [he] at hh
      simp only [httpError, List.nil_append, clientHeader, Option.some.injEq] at hh
      rw [← hh]
      exact httpError_keys ⟨[], []⟩ (lit "All OpenAI requests failed.") 503 hnil
  · intro requestCount acts
    exact (run_inv
      (fun s => (∀ k ∈ mapKeys s.header, isContentLength k = false) ∧
        ∀ p ∈ s.log, ∀ c hdr, p.2 = WriterCall.WriteHeader c hdr →
          ∀ k ∈ mapKeys hdr, isContentLength k = false)
      step_headers_clean (StreamState.init requestCount) acts
      ⟨hnil, by simp [StreamState.init]⟩).2

/-- C4 at a client that spells the name `CONTENT-LENGTH`: the key `Accept` is in the upstream
headers and is not a content-length key, and `Content-Length` is not among the keys. -/
theorem contentLength_never_forwarded_witness :
    lit "Accept" ∈
      mapKeys (streamingUpstreamHeader
        [(lit "CONTENT-LENGTH", [lit "3"]), (lit "accept", [lit "x"])] (lit "sk")) ∧
    isContentLength (lit "Accept") = false ∧
    lit "Content-Length" ∉
      mapKeys (streamingUpstreamHeader
        [(lit "CONTENT-LENGTH", [lit "3"]), (lit "accept", [lit "x"])] (lit "sk")) :=
  ⟨by decide,
    (contentLength_never_forwarded
      [(lit "CONTENT-LENGTH", [lit "3"]), (lit "accept", [lit "x"])] [] (lit "sk")).1
      (lit "Accept") (by decide),
    by decide⟩

/-- C6, at the input where it fails. With two attempts of a streaming request, one answered
500 and one failing in the network, both goroutines return, `wg.Wait()` returns and the
handler ends with no call on the client's writer: no status, no message. On the same
outcomes the non-streaming arbiter sends status 503 and its plain-text message. -/
theorem streaming_all_failed_writes_nothing :
    handlerReturned 2
        (run (StreamState.init 2) [Action.doResponse 0 ⟨500, []⟩, Action.doError 1]) = true ∧
    (run (StreamState.init 2) [Action.doResponse 0 ⟨500, []⟩, Action.doError 1]).log = [] ∧
    clientStatus
        (run (StreamState.init 2) [Action.doResponse 0 ⟨500, []⟩, Action.doError 1]).calls =
      none ∧
    clientStatus
        (handleNonStreamingRequest 2 ⟨[], []⟩
          [{ response := some ⟨500, []⟩, err := none, body := lit "upstream error",
             latency := 10 },
           { response := none, err := some (lit "connection refused"), body := [],
             latency := 20 }]).calls = some 503 ∧
    clientBody
        (handleNonStreamingRequest 2 ⟨[], []⟩
          [{ response := some ⟨500, []⟩, err := none, body := lit "upstream error",
             latency := 10 },
           { response := none, err := some (lit "connection refused"), body := [],
             latency := 20 }]).calls = lit "All OpenAI requests failed.\n" := by
  decide

/-- C10. The relay loop of the winning attempt over the sequence of its iterations, with no
cancellation observed. After iterations that read without error, at the read `x` that
returns EOF or an error (client writes succeeding): the calls on the client are, for each
read of these that returned bytes and in order, one write of the chunk and one flush, the
chunk read with the EOF or error included; the bytes written are the concatenation of the
non-empty chunks; there are as many flushes as writes; the loop is left and the context is
cancelled. If instead the write of the chunk of `x` fails: the calls end with that write,
there is no flush after it and no later call, whatever the later reads, and the context is
cancelled. -/
theorem relay_loop_spec (pre : List IterInput) (x : IterInput) (rest : List IterInput)
    (hpre : ∀ y ∈ pre, y.ctxDone = false ∧ y.rd.err = ReadErr.none ∧
      (y.rd.data ≠ [] → y.writeErr = false))
    (hx : x.ctxDone = false) :
    (x.rd.err ≠ ReadErr.none → (x.rd.data ≠ [] → x.writeErr = false) →
      relayLoop (pre ++ x :: rest) =
        { calls := (pre ++ [x]).flatMap chunkCalls, cancelled := true, exited := true } ∧
      clientBody (relayLoop (pre ++ x :: rest)).calls =
        (((pre ++ [x]).map (fun y => y.rd.data)).filter (fun d => decide (d ≠ []))).flatten ∧
      writeCount (relayLoop (pre ++ x :: rest)).calls =
        ((pre ++ [x]).filter (fun y => decide (y.rd.data ≠ []))).length ∧
      flushCount (relayLoop (pre ++ x :: rest)).calls =
        writeCount (relayLoop (pre ++ x :: rest)).calls) ∧
    (x.rd.data ≠ [] → x.writeErr = true →
      relayLoop (pre ++ x :: rest) =
        { calls := pre.flatMap chunkCalls ++ [WriterCall.Write x.rd.data], cancelled := true,
          exited := true }) := by
  constructor
  · intro he hw
    have h1 : relayLoop (pre ++ x :: rest) =
        { calls := (pre ++ [x]).flatMap chunkCalls, cancelled := true, exited := true } := by
      rw [relayLoop_append pre (x :: rest) hpre, relayLoop_cons, relayIter_last x hx he hw]
      simp [List.flatMap_append, List.flatMap_cons]
    refine ⟨h1, ?_, ?_, ?_⟩
    · rw [h1]
      exact chunkCalls_body _
    · rw [h1]
      exact (chunkCalls_counts _).1
    · rw [h1]
      exact (chunkCalls_counts _).2
  · intro hd hw
    rw [relayLoop_append pre (x :: rest) hpre, relayLoop_cons, relayIter_writeErr x hx hd hw]
    rfl

/-- C10 at the reads "ab", an empty read, then "c" with a read error, a fourth read never
made: the client gets "ab" and "c", each written and flushed. -/
theorem relay_loop_spec_witness :
    (∀ y ∈ [(⟨false, ⟨lit "ab", ReadErr.none⟩, false⟩ : IterInput),
        ⟨false, ⟨lit "", ReadErr.none⟩, false⟩],
      y.ctxDone = false ∧ y.rd.err = ReadErr.none ∧ (y.rd.data ≠ [] → y.writeErr = false)) ∧
    relayLoop
        ([(⟨false, ⟨lit "ab", ReadErr.none⟩, false⟩ : IterInput),
            ⟨false, ⟨lit "", ReadErr.none⟩, false⟩] ++
          ⟨false, ⟨lit "c", ReadErr.other⟩, false⟩ ::
            [⟨false, ⟨lit "zz", ReadErr.none⟩, false⟩]) =
      { calls := [WriterCall.Write (lit "ab"), WriterCall.Flush, WriterCall.Write (lit "c"),
          WriterCall.Flush],
        cancelled := true, exited := true } :=
  ⟨by decide,
    ((relay_loop_spec
      [⟨false, ⟨lit "ab", ReadErr.none⟩, false⟩, ⟨false, ⟨lit "", ReadErr.none⟩, false⟩]
      ⟨false, ⟨lit "c", ReadErr.other⟩, false⟩ [⟨false, ⟨lit "zz", ReadErr.none⟩, false⟩]
      (by decide) rfl).1 (by decide) (by decide)).1⟩

end FirstByte
